import Mathlib

/-! # gitprotocolio: chunked writer, side-band packets, synchronized writer

A shallow embedding of `chunked_writer.go` and `sideband.go`, and of the
synchronized writer and the response loop of the receive-pack handler in
`testing/http_proxy_server.go`.

* A Go `[]byte` is a `List Byte`.
* A call either returns normally, panics, or (for the two loops of the chunked
  writer) exhausts the iteration budget of the model: see `Res`.
* The unbuffered channel between the chunked writer and its consumer is the
  record `Chan`: the blocks handed over so far, in order, and whether the
  channel has been closed.  The consumer is taken to receive every block that
  is sent, so a send on an open channel never blocks.
* A block is a slice of the scratch array of the call that sends it.  `Chan`
  keeps the bytes a block holds when it is handed over; `writeLoopA`,
  `flushLoopA` and `held` follow the scratch array and give what the blocks
  hold once the call, or the run, is over.
-/

namespace gitprotocolio

/-- A Go `byte`. -/
abbrev Byte := UInt8

/-- The Go `error` values that the modelled code can see: `io.EOF` or some
other error. -/
inductive GoError where
  | EOF
  | other (msg : String)
  deriving DecidableEq, Repr

/-- Outcome of a call: a normal return, a run-time panic, or `timeout` when a
loop of the model has used up its iteration budget. -/
inductive Res (α : Type) where
  | ret (a : α)
  | panic (msg : String)
  | timeout
  deriving DecidableEq, Repr

/-! ## `bytes.Buffer` and the channel -/

/-- State of the channel `ch`: for every block handed to the consumer so far,
in emission order, the bytes the block held at the moment it was handed over,
and whether `close(ch)` has happened.  A block is a slice `bs[:rdsz]` of the
scratch array of the call that sends it, so what it holds later can differ: the
loops `writeLoopA` and `flushLoopA` follow the scratch array as well. -/
structure Chan where
  sent : List (List Byte)
  closed : Bool
  deriving DecidableEq, Repr

/-- The statement `ch <- v`: a send on a closed channel panics (`none`),
otherwise the consumer receives `v`, recorded with the bytes it holds at that
moment. -/
def Chan.send (c : Chan) (v : List Byte) : Option Chan :=
  if c.closed then none else some ⟨c.sent ++ [v], c.closed⟩

/-- The statement `close(ch)`: closing a closed channel panics (`none`). -/
def Chan.close (c : Chan) : Option Chan :=
  if c.closed then none else some ⟨c.sent, true⟩

/-- The call `buf.Write(p)` of `bytes.Buffer`, on the unread bytes of the
buffer: appends `p`, returns `len(p)` and a nil error. -/
def Buffer.Write (b p : List Byte) : List Byte × Nat :=
  (b ++ p, p.length)

/-- The call `buf.Read(bs)` of `bytes.Buffer` with `len(bs) = n`, on the unread
bytes of the buffer.  Returns the rest of the buffer, the bytes read
(`bs[:rdsz]`) and the error.  An empty buffer gives `(0, io.EOF)`, or `(0, nil)`
when `n = 0`; otherwise the first `min n (buf.Len())` bytes are read. -/
def Buffer.Read (b : List Byte) (n : Nat) : List Byte × List Byte × Option GoError :=
  if b.length = 0 then
    if n = 0 then (b, [], none) else (b, [], some GoError.EOF)
  else
    (b.drop n, b.take n, none)

/-! ## `chunked_writer.go` -/

/-- The struct `chunkedWriter`.  The chunk size `sz` is a natural number: a
negative `sz`, for which `make([]byte, w.sz)` panics, is outside the model. -/
structure chunkedWriter where
  buf : List Byte
  sz : Nat
  ch : Chan
  deriving DecidableEq, Repr

/-- `NewChunkedWriter(sz)`: an empty buffer and a fresh, open channel. -/
def NewChunkedWriter (sz : Nat) : chunkedWriter :=
  ⟨[], sz, ⟨[], false⟩⟩

/-- The loop `for w.sz <= w.buf.Len() { ... }` of `Write`, with `n` the value
that `Write` returns.  The first argument bounds the number of loop tests. -/
def writeLoop : Nat → chunkedWriter → Nat → chunkedWriter × Res (Nat × Option GoError)
  | 0, w, _ => (w, Res.timeout)
  | fuel + 1, w, n =>
    if w.sz ≤ w.buf.length then
      match Buffer.Read w.buf w.sz with
      | (b, _, some err) => (⟨b, w.sz, w.ch⟩, Res.ret (n, some err))
      | (b, rd, none) =>
        match w.ch.send rd with
        | none => (⟨b, w.sz, w.ch⟩, Res.panic "send on closed channel")
        | some c => writeLoop fuel ⟨b, w.sz, c⟩ n
    else
      (w, Res.ret (n, none))

/-- The method `Write`.  The loop is given `w.buf.Len() + 1` tests, which is
enough whenever `sz ≥ 1` (`writeLoop_spec`, `Write_terminates`); with `sz = 0`
the Go loop never ends and the model answers `timeout`. -/
def chunkedWriter.Write (w : chunkedWriter) (p : List Byte) :
    chunkedWriter × Res (Nat × Option GoError) :=
  let r := Buffer.Write w.buf p
  let w1 : chunkedWriter := ⟨r.1, w.sz, w.ch⟩
  if w1.sz ≤ w1.buf.length then
    writeLoop (w1.buf.length + 1) w1 r.2
  else
    (w1, Res.ret (r.2, none))

/-- The loop `for { ... }` of `Flush`.  The first argument bounds the number of
iterations. -/
def flushLoop : Nat → chunkedWriter → chunkedWriter × Res (Option GoError)
  | 0, w => (w, Res.timeout)
  | fuel + 1, w =>
    match Buffer.Read w.buf w.sz with
    | (b, rd, err) =>
      match (if rd.length ≠ 0 then w.ch.send rd else some w.ch) with
      | none => (⟨b, w.sz, w.ch⟩, Res.panic "send on closed channel")
      | some c =>
        match err with
        | some GoError.EOF => (⟨b, w.sz, c⟩, Res.ret none)
        | some e => (⟨b, w.sz, c⟩, Res.ret (some e))
        | none => flushLoop fuel ⟨b, w.sz, c⟩

/-- The method `Flush`.  The loop is given `w.buf.Len() + 1` iterations, which
is enough whenever `sz ≥ 1` (`flushLoop_spec`, `Flush_terminates`). -/
def chunkedWriter.Flush (w : chunkedWriter) : chunkedWriter × Res (Option GoError) :=
  flushLoop (w.buf.length + 1) w

/-- The method `Close`. -/
def chunkedWriter.Close (w : chunkedWriter) : chunkedWriter × Res (Option GoError) :=
  match w.Flush with
  | (w1, Res.ret none) =>
    match w1.ch.close with
    | none => (w1, Res.panic "close of closed channel")
    | some c => (⟨w1.buf, w1.sz, c⟩, Res.ret none)
  | (w1, Res.ret (some err)) => (w1, Res.ret (some err))
  | (w1, Res.panic msg) => (w1, Res.panic msg)
  | (w1, Res.timeout) => (w1, Res.timeout)

/-- One call on a chunked writer. -/
inductive Op where
  | write (p : List Byte)
  | flush
  | close
  deriving DecidableEq, Repr

/-- Performs one call and keeps the error it returns (for `Write`, the second
component of its result). -/
def Op.exec (w : chunkedWriter) : Op → chunkedWriter × Res (Option GoError)
  | Op.write p =>
    match w.Write p with
    | (w1, Res.ret (_, err)) => (w1, Res.ret err)
    | (w1, Res.panic msg) => (w1, Res.panic msg)
    | (w1, Res.timeout) => (w1, Res.timeout)
  | Op.flush => w.Flush
  | Op.close => w.Close

/-- Performs a sequence of calls in order and collects the errors they return.
A call that panics or runs out of budget ends the sequence there. -/
def runOps : chunkedWriter → List Op → chunkedWriter × Res (List (Option GoError))
  | w, [] => (w, Res.ret [])
  | w, op :: ops =>
    match op.exec w with
    | (w1, Res.ret err) =>
      match runOps w1 ops with
      | (w2, Res.ret errs) => (w2, Res.ret (err :: errs))
      | (w2, Res.panic msg) => (w2, Res.panic msg)
      | (w2, Res.timeout) => (w2, Res.timeout)
    | (w1, Res.panic msg) => (w1, Res.panic msg)
    | (w1, Res.timeout) => (w1, Res.timeout)

/-- The byte slices passed to `Write` by a sequence of calls, in call order. -/
def writtenBy : List Op → List (List Byte)
  | [] => []
  | Op.write p :: ops => p :: writtenBy ops
  | _ :: ops => writtenBy ops

/-- Whether a call is a `Write` or a `Flush`. -/
def Op.isWriteOrFlush : Op → Bool
  | Op.close => false
  | _ => true

/-- The blocks handed to the consumer, in emission order, by a sequence of
calls on a fresh chunked writer of chunk size `sz`, each with the bytes it holds
at the moment it is handed over (`held` gives what they hold at the end). -/
def emitted (sz : Nat) (ops : List Op) : List (List Byte) :=
  (runOps (NewChunkedWriter sz) ops).1.ch.sent

/-- Every block of `sent` holds at least one and at most `sz` bytes. -/
def BlocksOk (sz : Nat) (sent : List (List Byte)) : Prop :=
  ∀ b ∈ sent, 1 ≤ b.length ∧ b.length ≤ sz

/-- The consecutive `sz`-byte slices of `l`, as the specification words them:
`⌈B / sz⌉` blocks for `B = l.length`, block `i` holding the bytes from offset
`i * sz` up to `(i + 1) * sz` (or the end of `l`). -/
def specBlocks (sz : Nat) (l : List Byte) : List (List Byte) :=
  (List.range ((l.length + sz - 1) / sz)).map (fun i => (l.drop (i * sz)).take sz)

/-! ## `sideband.go` -/

/-- The lowercase hexadecimal digit of `d`, as the verb `%x` prints it. -/
def hexDigit (d : Nat) : Byte :=
  if d < 10 then UInt8.ofNat (48 + d) else UInt8.ofNat (87 + d)

/-- The digits of `n` in base 16, most significant first, put in front of
`acc`.  The first argument bounds the number of digits. -/
def hexDigitsCore : Nat → Nat → List Byte → List Byte
  | 0, _, acc => acc
  | fuel + 1, n, acc =>
    if n / 16 = 0 then hexDigit (n % 16) :: acc
    else hexDigitsCore fuel (n / 16) (hexDigit (n % 16) :: acc)

/-- `fmt.Sprintf("%x", n)` for `n ≥ 0`. -/
def hexDigits (n : Nat) : List Byte :=
  hexDigitsCore (n + 1) n []

/-- `fmt.Sprintf("%04x", n)` for `n ≥ 0`: the hexadecimal digits of `n`, padded
on the left with the character `0` up to a width of four. -/
def Sprintf04x (n : Nat) : List Byte :=
  List.replicate (4 - (hexDigits n).length) 48 ++ hexDigits n

/-- `[]byte(fmt.Sprintf("%04x%c", n, c))` for `n ≥ 0` and a code point `c` below
128, which `%c` prints as the single byte `c`. -/
def Sprintf04xc (n : Nat) (c : Byte) : List Byte :=
  Sprintf04x n ++ [c]

/-- `SideBandMainPacket.EncodeToPktLine`. -/
def SideBandMainPacket.EncodeToPktLine (p : List Byte) : Res (List Byte) :=
  let sz := p.length
  if sz > 0xFFFF - 5 then Res.panic "content too large"
  else Res.ret (Sprintf04xc (sz + 5) 1 ++ p)

/-- `SideBandReportPacket.EncodeToPktLine`. -/
def SideBandReportPacket.EncodeToPktLine (p : List Byte) : Res (List Byte) :=
  let sz := p.length
  if sz > 0xFFFF - 5 then Res.panic "content too large"
  else Res.ret (Sprintf04xc (sz + 5) 2 ++ p)

/-- `SideBandErrorPacket.EncodeToPktLine`. -/
def SideBandErrorPacket.EncodeToPktLine (p : List Byte) : Res (List Byte) :=
  let sz := p.length
  if sz > 0xFFFF - 5 then Res.panic "content too large"
  else Res.ret (Sprintf04xc (sz + 5) 3 ++ p)

/-- The non-nil values that `ParseSideBandPacket` returns through the interface
`BytePayloadPacket`: one constructor for each of the three side-band types. -/
inductive BytePayloadPacket where
  | SideBandMainPacket (p : List Byte)
  | SideBandReportPacket (p : List Byte)
  | SideBandErrorPacket (p : List Byte)
  deriving DecidableEq, Repr

/-- The method `EncodeToPktLine` called through the interface. -/
def BytePayloadPacket.EncodeToPktLine : BytePayloadPacket → Res (List Byte)
  | BytePayloadPacket.SideBandMainPacket p => SideBandMainPacket.EncodeToPktLine p
  | BytePayloadPacket.SideBandReportPacket p => SideBandReportPacket.EncodeToPktLine p
  | BytePayloadPacket.SideBandErrorPacket p => SideBandErrorPacket.EncodeToPktLine p

/-- The method `Bytes` called through the interface. -/
def BytePayloadPacket.Bytes : BytePayloadPacket → List Byte
  | BytePayloadPacket.SideBandMainPacket p => p
  | BytePayloadPacket.SideBandReportPacket p => p
  | BytePayloadPacket.SideBandErrorPacket p => p

/-- `ParseSideBandPacket`.  The result `none` is the nil interface value.  The
index expression `bp[0]` panics on an empty slice. -/
def ParseSideBandPacket (bp : List Byte) : Res (Option BytePayloadPacket) :=
  match bp.head? with
  | none => Res.panic "index out of range [0] with length 0"
  | some t =>
    if t = 1 then Res.ret (some (BytePayloadPacket.SideBandMainPacket (bp.drop 1)))
    else if t = 2 then Res.ret (some (BytePayloadPacket.SideBandReportPacket (bp.drop 1)))
    else if t = 3 then Res.ret (some (BytePayloadPacket.SideBandErrorPacket (bp.drop 1)))
    else Res.ret none

/-- Whether a byte is one of the characters `0`..`9`, `a`..`f`. -/
def isLowerHexDigit (c : Byte) : Bool :=
  (48 ≤ c.toNat && c.toNat ≤ 57) || (97 ≤ c.toNat && c.toNat ≤ 102)

/-- The value of a hexadecimal digit character. -/
def hexDigitValue (c : Byte) : Nat :=
  if c.toNat ≤ 57 then c.toNat - 48 else c.toNat - 87

/-- The number that a string of hexadecimal digits denotes, most significant
digit first. -/
def hexValue (l : List Byte) : Nat :=
  l.foldl (fun v c => 16 * v + hexDigitValue c) 0

/-- The first `k` consecutive `sz`-byte slices of `l`. -/
def slices (sz : Nat) (l : List Byte) (k : Nat) : List (List Byte) :=
  (List.range k).map (fun i => (l.drop (i * sz)).take sz)

/-- The loop of `Write` (`writeLoop`) together with the buffer length found at
the start of each run of its body, in order: the loop runs its body as many
times as this list is long.  The first component is `writeLoop`
(`writeLoopI_fst`). -/
def writeLoopI : Nat → chunkedWriter → Nat →
    (chunkedWriter × Res (Nat × Option GoError)) × List Nat
  | 0, w, _ => ((w, Res.timeout), [])
  | fuel + 1, w, n =>
    if w.sz ≤ w.buf.length then
      match Buffer.Read w.buf w.sz with
      | (b, _, some err) => ((⟨b, w.sz, w.ch⟩, Res.ret (n, some err)), [w.buf.length])
      | (b, rd, none) =>
        match w.ch.send rd with
        | none => ((⟨b, w.sz, w.ch⟩, Res.panic "send on closed channel"), [w.buf.length])
        | some c =>
          ((writeLoopI fuel ⟨b, w.sz, c⟩ n).1,
            w.buf.length :: (writeLoopI fuel ⟨b, w.sz, c⟩ n).2)
    else
      ((w, Res.ret (n, none)), [])

/-- The loop of `Flush` (`flushLoop`) together with the buffer length found at
the start of each iteration, in order.  The first component is `flushLoop`
(`flushLoopI_fst`). -/
def flushLoopI : Nat → chunkedWriter → (chunkedWriter × Res (Option GoError)) × List Nat
  | 0, w => ((w, Res.timeout), [])
  | fuel + 1, w =>
    match Buffer.Read w.buf w.sz with
    | (b, rd, err) =>
      match (if rd.length ≠ 0 then w.ch.send rd else some w.ch) with
      | none => ((⟨b, w.sz, w.ch⟩, Res.panic "send on closed channel"), [w.buf.length])
      | some c =>
        match err with
        | some GoError.EOF => ((⟨b, w.sz, c⟩, Res.ret none), [w.buf.length])
        | some e => ((⟨b, w.sz, c⟩, Res.ret (some e)), [w.buf.length])
        | none =>
          ((flushLoopI fuel ⟨b, w.sz, c⟩).1, w.buf.length :: (flushLoopI fuel ⟨b, w.sz, c⟩).2)

/-! ## The scratch array of `Write` and `Flush`

Both methods allocate one array `bs` for the whole call, and every block of the
call is a slice `bs[:rdsz]` of it: the next `buf.Read(bs)` overwrites what the
blocks handed over before it hold. -/

/-- The builtin `copy(dst, src)`: the array `dst` afterwards and the number of
bytes copied, `min(len(dst), len(src))`. -/
def copy (dst src : List Byte) : List Byte × Nat :=
  (src.take dst.length ++ dst.drop src.length, min dst.length src.length)

/-- The call `buf.Read(bs)` of `bytes.Buffer`, on the unread bytes of the buffer
and the array `bs`: the rest of the buffer, the array afterwards, `rdsz` and the
error.  `Buffer.Read` gives the same rest and error, and the bytes `bs[:rdsz]`
(`ReadInto_spec`). -/
def Buffer.ReadInto (b bs : List Byte) : List Byte × List Byte × Nat × Option GoError :=
  if b.length = 0 then
    if bs.length = 0 then (b, bs, 0, none) else (b, bs, 0, some GoError.EOF)
  else
    (b.drop bs.length, (copy bs b).1, (copy bs b).2, none)

/-- The loop of `Write` (`writeLoop`) with the scratch array `bs`: besides what
`writeLoop` returns (`writeLoopA_fst`), the array at the end of the loop and the
lengths `rdsz` of the slices `bs[:rdsz]` handed to the consumer, in order. -/
def writeLoopA : Nat → chunkedWriter → Nat → List Byte →
    (chunkedWriter × Res (Nat × Option GoError)) × List Byte × List Nat
  | 0, w, _, bs => ((w, Res.timeout), bs, [])
  | fuel + 1, w, n, bs =>
    if w.sz ≤ w.buf.length then
      match Buffer.ReadInto w.buf bs with
      | (b, bs1, _, some err) => ((⟨b, w.sz, w.ch⟩, Res.ret (n, some err)), bs1, [])
      | (b, bs1, rdsz, none) =>
        match w.ch.send (bs1.take rdsz) with
        | none => ((⟨b, w.sz, w.ch⟩, Res.panic "send on closed channel"), bs1, [])
        | some c =>
          ((writeLoopA fuel ⟨b, w.sz, c⟩ n bs1).1,
            (writeLoopA fuel ⟨b, w.sz, c⟩ n bs1).2.1,
            rdsz :: (writeLoopA fuel ⟨b, w.sz, c⟩ n bs1).2.2)
    else
      ((w, Res.ret (n, none)), bs, [])

/-- The loop of `Flush` (`flushLoop`) with the scratch array `bs`: besides what
`flushLoop` returns (`flushLoopA_fst`), the array at the end of the loop and the
lengths `rdsz` of the slices `bs[:rdsz]` handed to the consumer, in order. -/
def flushLoopA : Nat → chunkedWriter → List Byte →
    (chunkedWriter × Res (Option GoError)) × List Byte × List Nat
  | 0, w, bs => ((w, Res.timeout), bs, [])
  | fuel + 1, w, bs =>
    match Buffer.ReadInto w.buf bs with
    | (b, bs1, rdsz, err) =>
      match (if rdsz ≠ 0 then w.ch.send (bs1.take rdsz) else some w.ch) with
      | none => ((⟨b, w.sz, w.ch⟩, Res.panic "send on closed channel"), bs1, [])
      | some c =>
        match err with
        | some GoError.EOF =>
          ((⟨b, w.sz, c⟩, Res.ret none), bs1, if rdsz ≠ 0 then [rdsz] else [])
        | some e =>
          ((⟨b, w.sz, c⟩, Res.ret (some e)), bs1, if rdsz ≠ 0 then [rdsz] else [])
        | none =>
          ((flushLoopA fuel ⟨b, w.sz, c⟩ bs1).1,
            (flushLoopA fuel ⟨b, w.sz, c⟩ bs1).2.1,
            (if rdsz ≠ 0 then [rdsz] else []) ++ (flushLoopA fuel ⟨b, w.sz, c⟩ bs1).2.2)

/-- What the slices `bs[:rdsz]` of the given lengths hold, given the array
`bs`. -/
def slicesOf (bs : List Byte) (lens : List Nat) : List (List Byte) :=
  lens.map (fun l => bs.take l)

/-- The method `Write` with its scratch array `bs := make([]byte, w.sz)`:
besides what `Write` returns (`WriteA_fst`), what the blocks handed over by this
call hold once the call is over. -/
def chunkedWriter.WriteA (w : chunkedWriter) (p : List Byte) :
    (chunkedWriter × Res (Nat × Option GoError)) × List (List Byte) :=
  let r := Buffer.Write w.buf p
  let w1 : chunkedWriter := ⟨r.1, w.sz, w.ch⟩
  if w1.sz ≤ w1.buf.length then
    ((writeLoopA (w1.buf.length + 1) w1 r.2 (List.replicate w1.sz 0)).1,
      slicesOf (writeLoopA (w1.buf.length + 1) w1 r.2 (List.replicate w1.sz 0)).2.1
        (writeLoopA (w1.buf.length + 1) w1 r.2 (List.replicate w1.sz 0)).2.2)
  else
    ((w1, Res.ret (r.2, none)), [])

/-- The method `Flush` with its scratch array `bs := make([]byte, w.sz)`:
besides what `Flush` returns (`FlushA_fst`), what the blocks handed over by this
call hold once the call is over. -/
def chunkedWriter.FlushA (w : chunkedWriter) :
    (chunkedWriter × Res (Option GoError)) × List (List Byte) :=
  ((flushLoopA (w.buf.length + 1) w (List.replicate w.sz 0)).1,
    slicesOf (flushLoopA (w.buf.length + 1) w (List.replicate w.sz 0)).2.1
      (flushLoopA (w.buf.length + 1) w (List.replicate w.sz 0)).2.2)

/-- The method `Close`, with the blocks of its `Flush`. -/
def chunkedWriter.CloseA (w : chunkedWriter) :
    (chunkedWriter × Res (Option GoError)) × List (List Byte) :=
  (match w.FlushA.1 with
    | (w1, Res.ret none) =>
      match w1.ch.close with
      | none => (w1, Res.panic "close of closed channel")
      | some c => (⟨w1.buf, w1.sz, c⟩, Res.ret none)
    | (w1, Res.ret (some err)) => (w1, Res.ret (some err))
    | (w1, Res.panic msg) => (w1, Res.panic msg)
    | (w1, Res.timeout) => (w1, Res.timeout),
   w.FlushA.2)

/-- Performs one call (`Op.exec`), and gives what the blocks handed over by the
call hold once the call is over. -/
def Op.execA (w : chunkedWriter) : Op → (chunkedWriter × Res (Option GoError)) × List (List Byte)
  | Op.write p =>
    (match (w.WriteA p).1 with
      | (w1, Res.ret (_, err)) => (w1, Res.ret err)
      | (w1, Res.panic msg) => (w1, Res.panic msg)
      | (w1, Res.timeout) => (w1, Res.timeout),
     (w.WriteA p).2)
  | Op.flush => w.FlushA
  | Op.close => w.CloseA

/-- Performs a sequence of calls (`runOps`), and gives what the blocks handed
over hold at the end: each call has an array of its own, so a later call changes
no block of an earlier one. -/
def runOpsA : chunkedWriter → List Op →
    (chunkedWriter × Res (List (Option GoError))) × List (List Byte)
  | w, [] => ((w, Res.ret []), [])
  | w, op :: ops =>
    match (op.execA w).1 with
    | (w1, Res.ret err) =>
      (match (runOpsA w1 ops).1 with
        | (w2, Res.ret errs) => (w2, Res.ret (err :: errs))
        | (w2, Res.panic msg) => (w2, Res.panic msg)
        | (w2, Res.timeout) => (w2, Res.timeout),
       (op.execA w).2 ++ (runOpsA w1 ops).2)
    | (w1, Res.panic msg) => ((w1, Res.panic msg), (op.execA w).2)
    | (w1, Res.timeout) => ((w1, Res.timeout), (op.execA w).2)

/-- What the blocks handed to the consumer by a sequence of calls on a fresh
chunked writer hold at the end of the sequence, in emission order: what a
consumer that keeps the blocks it receives finds in them. -/
def held (sz : Nat) (ops : List Op) : List (List Byte) :=
  (runOpsA (NewChunkedWriter sz) ops).2

/-! ## `testing/http_proxy_server.go`: the synchronized writer -/

/-- A value of the interface `Packet` as `writePacket` receives it: the nil
interface value, one of the side-band packets of `sideband.go`, or a packet of a
type declared in another file (`FlushPacket`, `BytesPacket`, ...), which is
given by what its method `EncodeToPktLine` returns. -/
inductive Packet where
  | nil
  | sideband (p : BytePayloadPacket)
  | other (encoded : Res (List Byte))
  deriving DecidableEq, Repr

/-- The call `p.EncodeToPktLine()` on an interface value: a method call on the
nil interface panics. -/
def Packet.EncodeToPktLine : Packet → Res (List Byte)
  | Packet.nil => Res.panic "invalid memory address or nil pointer dereference"
  | Packet.sideband p => p.EncodeToPktLine
  | Packet.other encoded => encoded

/-- The conversion of the result of `ParseSideBandPacket`, an interface value
of type `BytePayloadPacket`, to the interface `Packet`: nil stays nil. -/
def Packet.ofBytePayloadPacket : Option BytePayloadPacket → Packet
  | none => Packet.nil
  | some p => Packet.sideband p

/-- The struct `synchronizedWriter`.  The sink `w` is the list of the byte
slices passed to its `Write`, in call order; it accepts every write and returns
a nil error.  Each method holds the mutex `m` from start to end, so calls are
performed one after the other. -/
structure synchronizedWriter where
  w : List (List Byte)
  closed : Bool
  deriving DecidableEq, Repr

/-- The method `writePacket`. -/
def synchronizedWriter.writePacket (s : synchronizedWriter) (p : Packet) :
    synchronizedWriter × Res (Option GoError) :=
  if s.closed then
    (s, Res.ret (some (GoError.other "already closed")))
  else
    match p.EncodeToPktLine with
    | Res.ret bs => (⟨s.w ++ [bs], s.closed⟩, Res.ret none)
    | Res.panic msg => (s, Res.panic msg)
    | Res.timeout => (s, Res.timeout)

/-- The method `closeWithError`, with `msg` the bytes of `err.Error()`.  The
flag is set before the error packet is encoded. -/
def synchronizedWriter.closeWithError (s : synchronizedWriter) (msg : List Byte) :
    synchronizedWriter × Res Unit :=
  if s.closed then
    (s, Res.ret ())
  else
    match SideBandErrorPacket.EncodeToPktLine msg with
    | Res.ret bs => (⟨s.w ++ [bs], true⟩, Res.ret ())
    | Res.panic m => (⟨s.w, true⟩, Res.panic m)
    | Res.timeout => (⟨s.w, true⟩, Res.timeout)

/-- One call on a synchronized writer. -/
inductive SyncOp where
  | writePacket (p : Packet)
  | closeWithError (msg : List Byte)
  deriving DecidableEq, Repr

/-- Performs one call on a synchronized writer, dropping the value it
returns. -/
def SyncOp.exec (s : synchronizedWriter) : SyncOp → synchronizedWriter × Res Unit
  | SyncOp.writePacket p =>
    match s.writePacket p with
    | (s1, Res.ret _) => (s1, Res.ret ())
    | (s1, Res.panic msg) => (s1, Res.panic msg)
    | (s1, Res.timeout) => (s1, Res.timeout)
  | SyncOp.closeWithError msg => s.closeWithError msg

/-- Performs a sequence of calls on a synchronized writer in order.  A call that
panics ends the sequence there. -/
def runSync : synchronizedWriter → List SyncOp → synchronizedWriter × Res Unit
  | s, [] => (s, Res.ret ())
  | s, op :: ops =>
    match op.exec s with
    | (s1, Res.ret _) => runSync s1 ops
    | (s1, Res.panic msg) => (s1, Res.panic msg)
    | (s1, Res.timeout) => (s1, Res.timeout)

/-! ## `testing/http_proxy_server.go`: the response loop of the receive-pack handler -/

/-- The write side `mainWt` of the `io.Pipe`: the bytes written so far, and
whether the pipe has been closed, in which case `Write` returns
`io.ErrClosedPipe`.  The reader is taken to read every write. -/
structure Pipe where
  data : List Byte
  closed : Bool
  deriving DecidableEq, Repr

/-- The call `mainWt.Write(p)`: `none` when it returns an error. -/
def Pipe.Write (pipe : Pipe) (p : List Byte) : Option Pipe :=
  if pipe.closed then none else some ⟨pipe.data ++ p, pipe.closed⟩

/-- The text of `io.ErrClosedPipe`: `io: read/write on closed pipe`. -/
def ErrClosedPipe : List Byte :=
  [105, 111, 58, 32, 114, 101, 97, 100, 47, 119, 114, 105, 116, 101, 32, 111, 110, 32, 99, 108, 111, 115, 101, 100, 32, 112, 105, 112, 101]

/-- The text `unexpected packet: `, which the loop puts in front of the
rendering of a packet it does not expect. -/
def unexpectedPacket : List Byte :=
  [117, 110, 101, 120, 112, 101, 99, 116, 101, 100, 32, 112, 97, 99, 107, 101, 116, 58, 32]

/-- A packet as the packet scanner hands it to the loop: a `BytesPacket`, a
`FlushPacket`, or a packet of any other type, given by its `%#v` rendering. -/
inductive ScannedPacket where
  | BytesPacket (p : List Byte)
  | FlushPacket
  | other (rendering : List Byte)
  deriving DecidableEq, Repr

/-- How one pass through the body of the loop ends: with the next iteration,
with `break scanner`, or with `return`. -/
inductive Ctl where
  | next
  | breakScanner
  | returned
  deriving DecidableEq, Repr

/-- What the first goroutine of the receive-pack handler works on: the pipe
`mainWt` and the synchronized writer `pktWt`. -/
structure demuxState where
  mainWt : Pipe
  pktWt : synchronizedWriter
  deriving DecidableEq, Repr

/-- Maps the outcome of a call to the outcome of the loop body that makes it. -/
def Res.andThen {α : Type} (r : Res α) (c : Ctl) : Res Ctl :=
  match r with
  | Res.ret _ => Res.ret c
  | Res.panic msg => Res.panic msg
  | Res.timeout => Res.timeout

/-- The body of the loop `for sc.Scan() { switch p := sc.Packet().(type) ... }`
for one scanned packet. -/
def demuxStep (st : demuxState) : ScannedPacket → demuxState × Res Ctl
  | ScannedPacket.BytesPacket p =>
    match ParseSideBandPacket p with
    | Res.panic msg => (st, Res.panic msg)
    | Res.timeout => (st, Res.timeout)
    | Res.ret sp =>
      match (match sp with
          | some (BytePayloadPacket.SideBandMainPacket mp) => st.mainWt.Write mp
          | _ => some st.mainWt) with
      | none =>
        ((⟨st.mainWt, (st.pktWt.closeWithError ErrClosedPipe).1⟩ : demuxState),
          (st.pktWt.closeWithError ErrClosedPipe).2.andThen Ctl.returned)
      | some pipe =>
        ((⟨pipe, (st.pktWt.writePacket (Packet.ofBytePayloadPacket sp)).1⟩ : demuxState),
          (st.pktWt.writePacket (Packet.ofBytePayloadPacket sp)).2.andThen Ctl.next)
  | ScannedPacket.FlushPacket => (st, Res.ret Ctl.breakScanner)
  | ScannedPacket.other rendering =>
    ((⟨st.mainWt, (st.pktWt.closeWithError (unexpectedPacket ++ rendering)).1⟩ : demuxState),
      (st.pktWt.closeWithError (unexpectedPacket ++ rendering)).2.andThen Ctl.returned)

/-- The loop over the packets that the scanner yields, then the test of
`sc.Err()`, whose text is `scErr` when the scanner stopped on an error.  After
`break scanner` the scanner has not failed and `sc.Err()` is nil. -/
def demuxLoop : demuxState → List ScannedPacket → Option (List Byte) → demuxState × Res Unit
  | st, [], none => (st, Res.ret ())
  | st, [], some err =>
    ((⟨st.mainWt, (st.pktWt.closeWithError err).1⟩ : demuxState),
      (st.pktWt.closeWithError err).2)
  | st, pkt :: rest, scErr =>
    match demuxStep st pkt with
    | (st1, Res.ret Ctl.next) => demuxLoop st1 rest scErr
    | (st1, Res.ret Ctl.breakScanner) => (st1, Res.ret ())
    | (st1, Res.ret Ctl.returned) => (st1, Res.ret ())
    | (st1, Res.panic msg) => (st1, Res.panic msg)
    | (st1, Res.timeout) => (st1, Res.timeout)

/-- The state in which the loop starts: an empty open pipe and the writer
`synchronizedWriter{w: w}`. -/
def demuxInit : demuxState :=
  ⟨⟨[], false⟩, ⟨[], false⟩⟩

/-! ## The loops of the chunked writer -/

theorem slices_zero (sz : Nat) (l : List Byte) : slices sz l 0 = [] := rfl

theorem slices_succ (sz : Nat) (l : List Byte) (k : Nat) :
    slices sz l (k + 1) = l.take sz :: slices sz (l.drop sz) k := by
  unfold slices
  rw [List.range_succ_eq_map]
  simp only [List.map_cons, List.map_map, Nat.zero_mul, List.drop_zero]
  congr 1
  apply List.map_congr_left
  intro i _
  simp only [Function.comp, List.drop_drop, Nat.succ_mul, Nat.add_comm]

theorem slices_length (sz : Nat) (l : List Byte) (k : Nat) : (slices sz l k).length = k := by
  simp [slices]

theorem specBlocks_eq_slices (sz : Nat) (l : List Byte) :
    specBlocks sz l = slices sz l ((l.length + sz - 1) / sz) := rfl

/-- With a positive chunk size, an open channel and enough budget, the loop of
`Write` hands over the first `⌊len / sz⌋` slices of the buffer and keeps the
rest. -/
theorem writeLoop_spec (sz : Nat) (hsz : 1 ≤ sz) :
    ∀ (fuel : Nat) (buf : List Byte) (sent : List (List Byte)) (n : Nat),
      buf.length / sz < fuel →
      writeLoop fuel ⟨buf, sz, ⟨sent, false⟩⟩ n =
        (⟨buf.drop (buf.length / sz * sz), sz,
          ⟨sent ++ slices sz buf (buf.length / sz), false⟩⟩, Res.ret (n, none)) := by
  intro fuel
  induction fuel with
  | zero => intro buf sent n h; exact absurd h (Nat.not_lt_zero _)
  | succ fuel ih =>
    intro buf sent n h
    by_cases hle : sz ≤ buf.length
    · have hne : buf.length ≠ 0 := by omega
      obtain ⟨k, hk⟩ : ∃ k, buf.length / sz = k + 1 :=
        ⟨buf.length / sz - 1, by have := Nat.div_pos hle hsz; omega⟩
      have hk' : (buf.drop sz).length / sz = k := by
        rw [List.length_drop]
        have := Nat.sub_mul_div buf.length sz 1
        simp only [Nat.mul_one] at this
        omega
      have hrec := ih (buf.drop sz) (sent ++ [buf.take sz]) n (by omega)
      simp only [writeLoop, hle, if_true, Buffer.Read, hne, if_false, Chan.send,
        Bool.false_eq_true]
      rw [hrec, hk', hk, slices_succ, List.drop_drop]
      simp [Nat.succ_mul, Nat.add_comm]
    · have h0 : buf.length / sz = 0 := Nat.div_eq_of_lt (by omega)
      simp [writeLoop, hle, h0, slices_zero]

/-- With a positive chunk size, an open channel and enough budget, the loop of
`Flush` hands over all `⌈len / sz⌉` slices of the buffer and empties it. -/
theorem flushLoop_spec (sz : Nat) (hsz : 1 ≤ sz) :
    ∀ (fuel : Nat) (buf : List Byte) (sent : List (List Byte)),
      (buf.length + sz - 1) / sz < fuel →
      flushLoop fuel ⟨buf, sz, ⟨sent, false⟩⟩ =
        (⟨[], sz, ⟨sent ++ specBlocks sz buf, false⟩⟩, Res.ret none) := by
  intro fuel
  induction fuel with
  | zero => intro buf sent h; exact absurd h (Nat.not_lt_zero _)
  | succ fuel ih =>
    intro buf sent h
    have hsz0 : sz ≠ 0 := by omega
    by_cases hne : buf.length = 0
    · have hb : buf = [] := List.length_eq_zero.mp hne
      subst hb
      have h0 : (sz - 1) / sz = 0 := Nat.div_eq_of_lt (by omega)
      simp [flushLoop, Buffer.Read, hsz0, specBlocks, h0]
    · obtain ⟨k, hk⟩ : ∃ k, (buf.length + sz - 1) / sz = k + 1 := by
        refine ⟨(buf.length + sz - 1) / sz - 1, ?_⟩
        have : 0 < (buf.length + sz - 1) / sz := Nat.div_pos (by omega) hsz
        omega
      have hk' : ((buf.drop sz).length + sz - 1) / sz = k := by
        rw [List.length_drop]
        by_cases hle : sz ≤ buf.length
        · have := Nat.sub_mul_div (buf.length + sz - 1) sz 1
          simp only [Nat.mul_one] at this
          have e : buf.length - sz + sz - 1 = buf.length + sz - 1 - sz := by omega
          rw [e]; omega
        · have e : buf.length - sz + sz - 1 = sz - 1 := by omega
          have h1 : (buf.length + sz - 1) / sz < 2 :=
            (Nat.div_lt_iff_lt_mul (by omega)).mpr (by omega)
          rw [e, Nat.div_eq_of_lt (by omega)]; omega
      have hrd : (buf.take sz).length ≠ 0 := by
        rw [List.length_take]; omega
      have hrec := ih (buf.drop sz) (sent ++ [buf.take sz]) (by omega)
      rw [specBlocks_eq_slices, hk'] at hrec
      simp only [flushLoop, Buffer.Read, hne, if_false, hrd, ne_eq, not_false_eq_true,
        if_true, Chan.send, Bool.false_eq_true]
      rw [hrec, specBlocks_eq_slices, hk, slices_succ]
      simp

theorem slices_flatten (sz : Nat) :
    ∀ (k : Nat) (l : List Byte), (slices sz l k).flatten = l.take (k * sz) := by
  intro k
  induction k with
  | zero => intro l; simp [slices_zero]
  | succ k ih =>
    intro l
    rw [slices_succ, List.flatten_cons, ih, Nat.succ_mul, Nat.add_comm (k * sz) sz,
      List.take_add]

theorem slices_add (sz : Nat) :
    ∀ (a b : Nat) (l : List Byte),
      slices sz l (a + b) = slices sz l a ++ slices sz (l.drop (a * sz)) b := by
  intro a
  induction a with
  | zero => intro b l; simp [slices_zero]
  | succ a ih =>
    intro b l
    rw [Nat.add_right_comm, slices_succ, slices_succ, ih, List.drop_drop, Nat.succ_mul]
    simp [Nat.add_comm]

theorem slices_append (sz : Nat) :
    ∀ (k : Nat) (l p : List Byte), k * sz ≤ l.length →
      slices sz (l ++ p) k = slices sz l k := by
  intro k
  induction k with
  | zero => intro l p _; rfl
  | succ k ih =>
    intro l p h
    rw [Nat.succ_mul] at h
    have hsz : sz ≤ l.length := by omega
    rw [slices_succ, slices_succ, List.take_append_of_le_length hsz,
      List.drop_append_of_le_length hsz, ih _ _ (by rw [List.length_drop]; omega)]

theorem slices_mem_length (sz : Nat) (l : List Byte) (k : Nat) (h : k * sz ≤ l.length) :
    ∀ b ∈ slices sz l k, b.length = sz := by
  intro b hb
  simp only [slices, List.mem_map, List.mem_range] at hb
  obtain ⟨i, hi, rfl⟩ := hb
  rw [List.length_take, List.length_drop]
  have : (i + 1) * sz ≤ k * sz := Nat.mul_le_mul_right sz hi
  rw [Nat.succ_mul] at this
  omega

theorem specBlocks_flatten (sz : Nat) (hsz : 1 ≤ sz) (l : List Byte) :
    (specBlocks sz l).flatten = l := by
  rw [specBlocks_eq_slices, slices_flatten]
  apply List.take_of_length_le
  have := Nat.div_add_mod (l.length + sz - 1) sz
  have := Nat.mod_lt (l.length + sz - 1) (show sz > 0 by omega)
  rw [Nat.mul_comm]
  omega

theorem specBlocks_nil (sz : Nat) (hsz : 1 ≤ sz) : specBlocks sz [] = [] := by
  have h0 : (sz - 1) / sz = 0 := Nat.div_eq_of_lt (by omega)
  simp [specBlocks, h0]

/-- `Write` on a writer with an open channel. -/
theorem Write_spec (sz : Nat) (hsz : 1 ≤ sz) (buf p : List Byte) (sent : List (List Byte)) :
    chunkedWriter.Write ⟨buf, sz, ⟨sent, false⟩⟩ p =
      (⟨(buf ++ p).drop ((buf ++ p).length / sz * sz), sz,
        ⟨sent ++ slices sz (buf ++ p) ((buf ++ p).length / sz), false⟩⟩,
       Res.ret (p.length, none)) := by
  unfold chunkedWriter.Write
  simp only [Buffer.Write]
  split
  · apply writeLoop_spec sz hsz
    exact Nat.lt_succ_of_le (Nat.div_le_self _ _)
  · rename_i h
    have h0 : (buf ++ p).length / sz = 0 := Nat.div_eq_of_lt (by omega)
    rw [h0]
    simp [slices_zero]

/-- `Flush` on a writer with an open channel. -/
theorem Flush_spec (sz : Nat) (hsz : 1 ≤ sz) (buf : List Byte) (sent : List (List Byte)) :
    chunkedWriter.Flush ⟨buf, sz, ⟨sent, false⟩⟩ =
      (⟨[], sz, ⟨sent ++ specBlocks sz buf, false⟩⟩, Res.ret none) := by
  unfold chunkedWriter.Flush
  apply flushLoop_spec sz hsz
  apply Nat.lt_succ_of_le
  apply Nat.le_of_lt_succ
  apply (Nat.div_lt_iff_lt_mul (by omega)).mpr
  show buf.length + sz - 1 < (buf.length + 1) * sz
  rw [Nat.succ_mul]
  have : buf.length ≤ buf.length * sz := Nat.le_mul_of_pos_right _ hsz
  omega

/-- `Close` on a writer with an open channel. -/
theorem Close_spec (sz : Nat) (hsz : 1 ≤ sz) (buf : List Byte) (sent : List (List Byte)) :
    chunkedWriter.Close ⟨buf, sz, ⟨sent, false⟩⟩ =
      (⟨[], sz, ⟨sent ++ specBlocks sz buf, true⟩⟩, Res.ret none) := by
  unfold chunkedWriter.Close
  rw [Flush_spec sz hsz]
  simp [Chan.close]

theorem exec_write_spec (sz : Nat) (hsz : 1 ≤ sz) (buf p : List Byte)
    (sent : List (List Byte)) :
    Op.exec ⟨buf, sz, ⟨sent, false⟩⟩ (Op.write p) =
      (⟨(buf ++ p).drop ((buf ++ p).length / sz * sz), sz,
        ⟨sent ++ slices sz (buf ++ p) ((buf ++ p).length / sz), false⟩⟩, Res.ret none) := by
  simp only [Op.exec, Write_spec sz hsz]

theorem runOps_cons_ret (w w1 : chunkedWriter) (op : Op) (ops : List Op)
    (err : Option GoError) (h : op.exec w = (w1, Res.ret err)) :
    runOps w (op :: ops) =
      match runOps w1 ops with
      | (w2, Res.ret errs) => (w2, Res.ret (err :: errs))
      | (w2, Res.panic msg) => (w2, Res.panic msg)
      | (w2, Res.timeout) => (w2, Res.timeout) := by
  simp only [runOps, h]

/-- Any run of `Write` and `Flush` calls followed by `Close`, started with an
open channel: every call returns a nil error, the buffer ends empty, the channel
closed, and the blocks handed over concatenate to what was handed over before,
then what was buffered, then what was written. -/
theorem runOps_close_flatten (sz : Nat) (hsz : 1 ≤ sz) :
    ∀ (ops : List Op), (∀ op ∈ ops, op.isWriteOrFlush = true) →
      ∀ (buf : List Byte) (sent : List (List Byte)),
        ∃ blocks, runOps ⟨buf, sz, ⟨sent, false⟩⟩ (ops ++ [Op.close]) =
            (⟨[], sz, ⟨blocks, true⟩⟩, Res.ret (List.replicate (ops.length + 1) none)) ∧
          blocks.flatten = sent.flatten ++ buf ++ (writtenBy ops).flatten := by
  intro ops
  induction ops with
  | nil =>
    intro _ buf sent
    refine ⟨sent ++ specBlocks sz buf, ?_, ?_⟩
    · have h : Op.exec ⟨buf, sz, ⟨sent, false⟩⟩ Op.close =
          (⟨[], sz, ⟨sent ++ specBlocks sz buf, true⟩⟩, Res.ret none) := Close_spec sz hsz buf sent
      rw [List.nil_append, runOps_cons_ret _ _ _ _ _ h]
      rfl
    · simp [writtenBy, specBlocks_flatten sz hsz]
  | cons op ops ih =>
    intro hops buf sent
    have hrest : ∀ o ∈ ops, o.isWriteOrFlush = true :=
      fun o ho => hops o (List.mem_cons_of_mem _ ho)
    cases op with
    | write p =>
      obtain ⟨blocks, hrun, hflat⟩ := ih hrest
        ((buf ++ p).drop ((buf ++ p).length / sz * sz))
        (sent ++ slices sz (buf ++ p) ((buf ++ p).length / sz))
      refine ⟨blocks, ?_, ?_⟩
      · rw [List.cons_append, runOps_cons_ret _ _ _ _ _ (exec_write_spec sz hsz buf p sent),
          hrun]
        rfl
      · rw [hflat, List.flatten_append, slices_flatten]
        simp only [writtenBy, List.flatten_cons, List.append_assoc]
        rw [← List.append_assoc (List.take _ _), List.take_append_drop]
        simp
    | flush =>
      obtain ⟨blocks, hrun, hflat⟩ := ih hrest [] (sent ++ specBlocks sz buf)
      refine ⟨blocks, ?_, ?_⟩
      · have h : Op.exec ⟨buf, sz, ⟨sent, false⟩⟩ Op.flush =
            (⟨[], sz, ⟨sent ++ specBlocks sz buf, false⟩⟩, Res.ret none) :=
          Flush_spec sz hsz buf sent
        rw [List.cons_append, runOps_cons_ret _ _ _ _ _ h, hrun]
        rfl
      · rw [hflat, List.flatten_append, specBlocks_flatten sz hsz]
        simp [writtenBy]
    | close =>
      have := hops Op.close (List.mem_cons_self _ _)
      simp [Op.isWriteOrFlush] at this

/-- At the moment of hand-over: for every chunk size `sz ≥ 1` and every finite
sequence of `Write` and `Flush` calls on a fresh chunked writer followed by
`Close`, every call returns normally with a nil error, and the bytes that the
blocks hold when they are handed to the consumer, concatenated in emission
order, are the byte slices passed to `Write`, concatenated in call order.  What
the blocks hold afterwards is another matter (`WriteA_held`). -/
theorem handover_conservation (sz : Nat) (hsz : 1 ≤ sz) (ops : List Op)
    (hops : ∀ op ∈ ops, op.isWriteOrFlush = true) :
    (runOps (NewChunkedWriter sz) (ops ++ [Op.close])).2 =
        Res.ret (List.replicate (ops.length + 1) none) ∧
      (runOps (NewChunkedWriter sz) (ops ++ [Op.close])).1.ch.sent.flatten =
        (writtenBy ops).flatten := by
  obtain ⟨blocks, hrun, hflat⟩ := runOps_close_flatten sz hsz ops hops [] []
  unfold NewChunkedWriter
  rw [hrun]
  exact ⟨rfl, by simpa using hflat⟩

/-- The hand-over bytes at `sz = 3`: `Write("ab")`, `Flush`, `Write("cdefg")`,
`Close`. -/
theorem handover_conservation_witness :
    (runOps (NewChunkedWriter 3)
        ([Op.write [97, 98], Op.flush, Op.write [99, 100, 101, 102, 103]] ++ [Op.close])).2 =
        Res.ret (List.replicate (3 + 1) none) ∧
      (runOps (NewChunkedWriter 3)
        ([Op.write [97, 98], Op.flush, Op.write [99, 100, 101, 102, 103]] ++
          [Op.close])).1.ch.sent.flatten =
        (writtenBy [Op.write [97, 98], Op.flush, Op.write [99, 100, 101, 102, 103]]).flatten :=
  handover_conservation 3 (by decide)
    [Op.write [97, 98], Op.flush, Op.write [99, 100, 101, 102, 103]] (by decide)

theorem div_mul_le_length (sz : Nat) (l : List Byte) : l.length / sz * sz ≤ l.length :=
  Nat.div_mul_le_self _ _

/-- Closing after `k` full slices of `l` have been handed over and the rest of
`l` is buffered hands over exactly the slices of `l`. -/
theorem slices_append_specBlocks (sz : Nat) (hsz : 1 ≤ sz) (l : List Byte) (k : Nat)
    (hk : k * sz ≤ l.length) :
    slices sz l k ++ specBlocks sz (l.drop (k * sz)) = specBlocks sz l := by
  rw [specBlocks_eq_slices, specBlocks_eq_slices, ← slices_add, List.length_drop]
  congr 1
  have h := Nat.sub_mul_div (l.length + sz - 1) sz k (by rw [Nat.mul_comm]; omega)
  have e : l.length - k * sz + sz - 1 = l.length + sz - 1 - sz * k := by
    rw [Nat.mul_comm sz k]; omega
  rw [e, h]
  have : k ≤ (l.length + sz - 1) / sz := by
    apply (Nat.le_div_iff_mul_le (by omega)).mpr
    omega
  omega

/-- A `Write` on a writer that has handed over the full slices of `J` and
buffers the rest of `J` leaves it in the same relation to `J ++ p`. -/
theorem exec_write_aligned (sz : Nat) (hsz : 1 ≤ sz) (J p : List Byte) :
    Op.exec ⟨J.drop (J.length / sz * sz), sz, ⟨slices sz J (J.length / sz), false⟩⟩
        (Op.write p) =
      (⟨(J ++ p).drop ((J ++ p).length / sz * sz), sz,
        ⟨slices sz (J ++ p) ((J ++ p).length / sz), false⟩⟩, Res.ret none) := by
  have hk := div_mul_le_length sz J
  have hbuf : J.drop (J.length / sz * sz) ++ p = (J ++ p).drop (J.length / sz * sz) :=
    (List.drop_append_of_le_length hk).symm
  have hlen : ((J ++ p).drop (J.length / sz * sz)).length / sz =
      (J ++ p).length / sz - J.length / sz := by
    rw [List.length_drop, Nat.mul_comm]
    exact Nat.sub_mul_div _ _ _ (by rw [Nat.mul_comm, List.length_append]; omega)
  have hmono : J.length / sz ≤ (J ++ p).length / sz :=
    Nat.div_le_div_right (by rw [List.length_append]; omega)
  have hsum : J.length / sz + ((J ++ p).length / sz - J.length / sz) = (J ++ p).length / sz := by
    omega
  rw [exec_write_spec sz hsz, hbuf, hlen, List.drop_drop, ← Nat.add_mul, hsum,
    ← slices_append sz (J.length / sz) J p hk, ← slices_add, hsum]

/-- A run of `Write` calls followed by `Close` on a writer that has handed over
the full slices of `J` and buffers the rest of `J`. -/
theorem runOps_writes_close (sz : Nat) (hsz : 1 ≤ sz) :
    ∀ (ps : List (List Byte)) (J : List Byte),
      runOps ⟨J.drop (J.length / sz * sz), sz, ⟨slices sz J (J.length / sz), false⟩⟩
          (ps.map Op.write ++ [Op.close]) =
        (⟨[], sz, ⟨specBlocks sz (J ++ ps.flatten), true⟩⟩,
         Res.ret (List.replicate (ps.length + 1) none)) := by
  intro ps
  induction ps with
  | nil =>
    intro J
    have h : Op.exec ⟨J.drop (J.length / sz * sz), sz, ⟨slices sz J (J.length / sz), false⟩⟩
        Op.close = (⟨[], sz, ⟨specBlocks sz J, true⟩⟩, Res.ret none) := by
      show chunkedWriter.Close _ = _
      rw [Close_spec sz hsz, slices_append_specBlocks sz hsz J _ (div_mul_le_length sz J)]
    rw [List.map_nil, List.nil_append, runOps_cons_ret _ _ _ _ _ h, List.flatten_nil,
      List.append_nil]
    rfl
  | cons p ps ih =>
    intro J
    rw [List.map_cons, List.cons_append, runOps_cons_ret _ _ _ _ _ (exec_write_aligned sz hsz J p),
      ih (J ++ p)]
    simp [List.replicate_succ]

theorem specBlocks_length (sz : Nat) (l : List Byte) :
    (specBlocks sz l).length = (l.length + sz - 1) / sz := by
  simp [specBlocks]

theorem specBlocks_getElem? (sz : Nat) (l : List Byte) (i : Nat) (b : List Byte)
    (h : (specBlocks sz l)[i]? = some b) :
    i < (l.length + sz - 1) / sz ∧ b = (l.drop (i * sz)).take sz := by
  have hi : i < (specBlocks sz l).length := by
    rcases Nat.lt_or_ge i (specBlocks sz l).length with h1 | h1
    · exact h1
    · rw [List.getElem?_eq_none h1] at h; cases h
  rw [specBlocks_length] at hi
  refine ⟨hi, ?_⟩
  simp only [specBlocks, List.getElem?_map, List.getElem?_range hi, Option.map_some',
    Option.some.injEq] at h
  exact h.symm

/-- Block sizes of `specBlocks`: every block but the last holds exactly `sz`
bytes, the last between 1 and `sz`. -/
theorem specBlocks_sizes (sz : Nat) (hsz : 1 ≤ sz) (l : List Byte) (i : Nat) (b : List Byte)
    (h : (specBlocks sz l)[i]? = some b) :
    (i + 1 < (specBlocks sz l).length → b.length = sz) ∧
      (i + 1 = (specBlocks sz l).length → 1 ≤ b.length ∧ b.length ≤ sz) := by
  obtain ⟨hi, rfl⟩ := specBlocks_getElem? sz l i b h
  rw [specBlocks_length, List.length_take, List.length_drop]
  have hdm := Nat.div_add_mod (l.length + sz - 1) sz
  have hmod := Nat.mod_lt (l.length + sz - 1) (show sz > 0 by omega)
  rw [Nat.mul_comm] at hdm
  constructor
  · intro h1
    have : (i + 2) * sz ≤ (l.length + sz - 1) / sz * sz := Nat.mul_le_mul_right sz h1
    rw [Nat.add_mul] at this
    omega
  · intro h1
    rw [← h1, Nat.add_mul] at hdm
    omega

/-- At the moment of hand-over: for every `sz ≥ 1` and every sequence of
`Write` calls totalling `B` bytes on a fresh chunked writer followed by `Close`,
every call returns a nil error and the blocks, with the bytes they hold when
they are handed to the consumer, are the consecutive `sz`-byte slices of the
concatenated input: there are `⌈B / sz⌉` blocks, every block except the last has
exactly `sz` bytes, the last has between 1 and `sz` bytes, and there is no block
when `B = 0`.  With `sz = 4`, `"abcdefgh"` is handed over as `"abcd"` and then
`"efgh"`, and `"abcdef"` as `"abcd"` and then `"ef"`.  What the blocks hold
afterwards is another matter (`WriteA_held`). -/
theorem handover_blocks_exact (sz : Nat) (hsz : 1 ≤ sz) (ps : List (List Byte)) :
    (runOps (NewChunkedWriter sz) (ps.map Op.write ++ [Op.close])).2 =
        Res.ret (List.replicate (ps.length + 1) none) ∧
      emitted sz (ps.map Op.write ++ [Op.close]) = specBlocks sz ps.flatten ∧
      (emitted sz (ps.map Op.write ++ [Op.close])).length =
        (ps.flatten.length + sz - 1) / sz ∧
      (∀ (i : Nat) (b : List Byte),
        (emitted sz (ps.map Op.write ++ [Op.close]))[i]? = some b →
          (i + 1 < (emitted sz (ps.map Op.write ++ [Op.close])).length → b.length = sz) ∧
          (i + 1 = (emitted sz (ps.map Op.write ++ [Op.close])).length →
            1 ≤ b.length ∧ b.length ≤ sz)) ∧
      (ps.flatten.length = 0 → emitted sz (ps.map Op.write ++ [Op.close]) = []) ∧
      emitted 4 [Op.write [97, 98, 99, 100, 101, 102, 103, 104], Op.close] =
        [[97, 98, 99, 100], [101, 102, 103, 104]] ∧
      emitted 4 [Op.write [97, 98, 99, 100, 101, 102], Op.close] =
        [[97, 98, 99, 100], [101, 102]] := by
  have hrun := runOps_writes_close sz hsz ps []
  simp only [List.length_nil, Nat.zero_div, Nat.zero_mul, List.drop_nil, slices_zero,
    List.nil_append] at hrun
  have hem : emitted sz (ps.map Op.write ++ [Op.close]) = specBlocks sz ps.flatten := by
    unfold emitted NewChunkedWriter
    rw [hrun]
  refine ⟨?_, hem, ?_, ?_, ?_, by decide, by decide⟩
  · unfold NewChunkedWriter
    rw [hrun]
  · rw [hem, specBlocks_length]
  · intro i b hb
    rw [hem] at hb ⊢
    exact specBlocks_sizes sz hsz _ i b hb
  · intro h0
    rw [hem, List.length_eq_zero.mp h0, specBlocks_nil sz hsz]

/-- The hand-over bytes at `sz = 4`: `Write("abc")`, `Write("defgh")`,
`Write("i")`, `Close`. -/
theorem handover_blocks_exact_witness :
    emitted 4 ([[97, 98, 99], [100, 101, 102, 103, 104], [105]].map Op.write ++ [Op.close]) =
        [[97, 98, 99, 100], [101, 102, 103, 104], [105]] ∧
      (emitted 4 ([[97, 98, 99], [100, 101, 102, 103, 104], [105]].map Op.write ++
        [Op.close])).length = (9 + 4 - 1) / 4 :=
  ⟨((handover_blocks_exact 4 (by decide)
      [[97, 98, 99], [100, 101, 102, 103, 104], [105]]).2.1).trans (by decide),
   (handover_blocks_exact 4 (by decide)
      [[97, 98, 99], [100, 101, 102, 103, 104], [105]]).2.2.1⟩

theorem BlocksOk_snoc (sz : Nat) (sent : List (List Byte)) (b : List Byte)
    (h : BlocksOk sz sent) (h1 : 1 ≤ b.length) (h2 : b.length ≤ sz) :
    BlocksOk sz (sent ++ [b]) := by
  intro c hc
  rcases List.mem_append.mp hc with hc | hc
  · exact h c hc
  · rw [List.mem_singleton.mp hc]; exact ⟨h1, h2⟩

/-- The loop of `Write` keeps the chunk size and only hands over blocks of 1 to
`sz` bytes, whatever the state of the channel. -/
theorem writeLoop_blocks :
    ∀ (fuel : Nat) (w : chunkedWriter) (n : Nat), 1 ≤ w.sz → BlocksOk w.sz w.ch.sent →
      (writeLoop fuel w n).1.sz = w.sz ∧ BlocksOk w.sz (writeLoop fuel w n).1.ch.sent := by
  intro fuel
  induction fuel with
  | zero => intro w n _ h; exact ⟨rfl, h⟩
  | succ fuel ih =>
    intro w n hsz hok
    obtain ⟨buf, sz, ⟨sent, closed⟩⟩ := w
    simp only at hsz hok
    by_cases hle : sz ≤ buf.length
    · have hne : buf.length ≠ 0 := by omega
      cases closed with
      | true =>
        simp only [writeLoop, hle, if_true, Buffer.Read, hne, if_false, Chan.send]
        exact ⟨trivial, hok⟩
      | false =>
        simp only [writeLoop, hle, if_true, Buffer.Read, hne, if_false, Chan.send,
          Bool.false_eq_true]
        exact ih ⟨buf.drop sz, sz, ⟨sent ++ [buf.take sz], false⟩⟩ n hsz
          (BlocksOk_snoc sz sent _ hok (by rw [List.length_take]; omega)
            (by rw [List.length_take]; omega))
    · simp only [writeLoop, hle, if_false]
      exact ⟨trivial, hok⟩

/-- The loop of `Flush` keeps the chunk size and only hands over blocks of 1 to
`sz` bytes, whatever the state of the channel. -/
theorem flushLoop_blocks :
    ∀ (fuel : Nat) (w : chunkedWriter), 1 ≤ w.sz → BlocksOk w.sz w.ch.sent →
      (flushLoop fuel w).1.sz = w.sz ∧ BlocksOk w.sz (flushLoop fuel w).1.ch.sent := by
  intro fuel
  induction fuel with
  | zero => intro w _ h; exact ⟨rfl, h⟩
  | succ fuel ih =>
    intro w hsz hok
    obtain ⟨buf, sz, ⟨sent, closed⟩⟩ := w
    simp only at hsz hok
    have hsz0 : sz ≠ 0 := by omega
    by_cases hne : buf.length = 0
    · simp only [flushLoop, Buffer.Read, hne, if_true, hsz0, if_false, List.length_nil, ne_eq,
        not_true_eq_false]
      exact ⟨trivial, hok⟩
    · have hrd : (buf.take sz).length ≠ 0 := by rw [List.length_take]; omega
      cases closed with
      | true =>
        simp only [flushLoop, Buffer.Read, hne, if_false, hrd, ne_eq, not_false_eq_true,
          if_true, Chan.send]
        exact ⟨trivial, hok⟩
      | false =>
        simp only [flushLoop, Buffer.Read, hne, if_false, hrd, ne_eq, not_false_eq_true,
          if_true, Chan.send, Bool.false_eq_true]
        exact ih ⟨buf.drop sz, sz, ⟨sent ++ [buf.take sz], false⟩⟩ hsz
          (BlocksOk_snoc sz sent _ hok (by omega) (by rw [List.length_take]; omega))

theorem Write_blocks (w : chunkedWriter) (p : List Byte) (hsz : 1 ≤ w.sz)
    (hok : BlocksOk w.sz w.ch.sent) :
    (w.Write p).1.sz = w.sz ∧ BlocksOk w.sz (w.Write p).1.ch.sent := by
  unfold chunkedWriter.Write
  simp only [Buffer.Write]
  split
  · exact writeLoop_blocks _ ⟨w.buf ++ p, w.sz, w.ch⟩ _ hsz hok
  · exact ⟨rfl, hok⟩

theorem Flush_blocks (w : chunkedWriter) (hsz : 1 ≤ w.sz) (hok : BlocksOk w.sz w.ch.sent) :
    w.Flush.1.sz = w.sz ∧ BlocksOk w.sz w.Flush.1.ch.sent :=
  flushLoop_blocks _ w hsz hok

theorem Close_blocks (w : chunkedWriter) (hsz : 1 ≤ w.sz) (hok : BlocksOk w.sz w.ch.sent) :
    w.Close.1.sz = w.sz ∧ BlocksOk w.sz w.Close.1.ch.sent := by
  have h := Flush_blocks w hsz hok
  unfold chunkedWriter.Close
  split
  · rename_i w1 heq
    rw [heq] at h
    simp only [Chan.close]
    by_cases hc : w1.ch.closed = true
    · simp only [hc, if_true]; exact h
    · simp only [hc, if_false]; exact h
  · rename_i w1 err heq; rw [heq] at h; exact h
  · rename_i w1 msg heq; rw [heq] at h; exact h
  · rename_i w1 heq; rw [heq] at h; exact h

theorem exec_blocks (w : chunkedWriter) (op : Op) (hsz : 1 ≤ w.sz)
    (hok : BlocksOk w.sz w.ch.sent) :
    (op.exec w).1.sz = w.sz ∧ BlocksOk w.sz (op.exec w).1.ch.sent := by
  cases op with
  | write p =>
    have h := Write_blocks w p hsz hok
    simp only [Op.exec]
    split
    · rename_i w1 n err heq; rw [heq] at h; exact h
    · rename_i w1 msg heq; rw [heq] at h; exact h
    · rename_i w1 heq; rw [heq] at h; exact h
  | flush => exact Flush_blocks w hsz hok
  | close => exact Close_blocks w hsz hok

/-- The writer state after a run: the state after the rest of the run when the
first call returns, the state at the first call otherwise. -/
theorem runOps_cons_fst (w : chunkedWriter) (op : Op) (ops : List Op) :
    (runOps w (op :: ops)).1 = (runOps (op.exec w).1 ops).1 ∨
      (runOps w (op :: ops)).1 = (op.exec w).1 := by
  simp only [runOps]
  split
  · rename_i w1 err heq
    rw [heq]
    left
    split <;> simp_all
  · rename_i w1 msg heq; rw [heq]; right; rfl
  · rename_i w1 heq; rw [heq]; right; rfl

theorem runOps_blocks :
    ∀ (ops : List Op) (w : chunkedWriter), 1 ≤ w.sz → BlocksOk w.sz w.ch.sent →
      (runOps w ops).1.sz = w.sz ∧ BlocksOk w.sz (runOps w ops).1.ch.sent := by
  intro ops
  induction ops with
  | nil => intro w _ h; exact ⟨rfl, h⟩
  | cons op ops ih =>
    intro w hsz hok
    have hex := exec_blocks w op hsz hok
    rcases runOps_cons_fst w op ops with h | h
    · rw [h]
      have := ih (op.exec w).1 (by rw [hex.1]; exact hsz) (by rw [hex.1]; exact hex.2)
      rw [hex.1] at this
      exact this
    · rw [h]; exact hex

/-- C3: for every `sz ≥ 1` and every sequence of `Write`, `Flush` and `Close`
calls on a fresh chunked writer, every block handed to the consumer has length
at least 1 and at most `sz`. -/
theorem chunked_block_bounds (sz : Nat) (hsz : 1 ≤ sz) (ops : List Op) (b : List Byte)
    (hb : b ∈ emitted sz ops) : 1 ≤ b.length ∧ b.length ≤ sz :=
  (runOps_blocks ops (NewChunkedWriter sz) hsz (fun _ h => by cases h)).2 b hb

/-- C3 at `sz = 2`: the block `"c"` of `Write("abc")`, `Flush`, `Close`. -/
theorem chunked_block_bounds_witness :
    [99] ∈ emitted 2 [Op.write [97, 98, 99], Op.flush, Op.close] ∧
      1 ≤ [(99 : Byte)].length ∧ [(99 : Byte)].length ≤ 2 :=
  ⟨by decide, chunked_block_bounds 2 (by decide) [Op.write [97, 98, 99], Op.flush, Op.close]
    [99] (by decide)⟩

/-- C4, as the code has it: for every `sz ≥ 1` and every chunked-writer state
whose channel has not been closed or whose buffer is empty, `Flush` returns a
nil error, leaves the internal buffer empty and the channel open or closed as it
was, and the blocks it emits hold, each at the moment it is handed to the
consumer, consecutive pieces of the buffered bytes: in order they concatenate to
exactly the bytes that were buffered before the call; when the buffer is already
empty it emits nothing. -/
theorem flush_drains (w : chunkedWriter) (hsz : 1 ≤ w.sz)
    (hopen : w.ch.closed = false ∨ w.buf = []) :
    w.Flush.2 = Res.ret none ∧ w.Flush.1.buf = [] ∧ w.Flush.1.sz = w.sz ∧
      w.Flush.1.ch.closed = w.ch.closed ∧
      ∃ blocks, w.Flush.1.ch.sent = w.ch.sent ++ blocks ∧ blocks.flatten = w.buf ∧
        (w.buf = [] → blocks = []) := by
  obtain ⟨buf, sz, ⟨sent, closed⟩⟩ := w
  simp only at hsz hopen
  have hsz0 : sz ≠ 0 := by omega
  cases closed with
  | false =>
    rw [Flush_spec sz hsz]
    refine ⟨rfl, rfl, rfl, rfl, specBlocks sz buf, rfl, specBlocks_flatten sz hsz buf, ?_⟩
    intro h
    simp only at h
    rw [h, specBlocks_nil sz hsz]
  | true =>
    have hb : buf = [] := by
      rcases hopen with h | h
      · cases h
      · exact h
    subst hb
    have hf : chunkedWriter.Flush ⟨[], sz, ⟨sent, true⟩⟩ = (⟨[], sz, ⟨sent, true⟩⟩, Res.ret none) := by
      simp [chunkedWriter.Flush, flushLoop, Buffer.Read, hsz0]
    rw [hf]
    exact ⟨rfl, rfl, rfl, rfl, [], by simp, rfl, fun _ => rfl⟩

/-- C4 at `sz = 2` with `"abc"` buffered after the block `"xy"` was emitted, and
on the closed writer with an empty buffer. -/
theorem flush_drains_witness :
    (chunkedWriter.Flush ⟨[97, 98, 99], 2, ⟨[[120, 121]], false⟩⟩).2 = Res.ret none ∧
      (chunkedWriter.Flush ⟨[97, 98, 99], 2, ⟨[[120, 121]], false⟩⟩).1 =
        ⟨[], 2, ⟨[[120, 121], [97, 98], [99]], false⟩⟩ ∧
      (chunkedWriter.Flush ⟨[], 2, ⟨[[120, 121]], true⟩⟩).2 = Res.ret none :=
  ⟨(flush_drains ⟨[97, 98, 99], 2, ⟨[[120, 121]], false⟩⟩ (by decide) (Or.inl rfl)).1,
   by decide,
   (flush_drains ⟨[], 2, ⟨[[120, 121]], true⟩⟩ (by decide) (Or.inr rfl)).1⟩

/-- C4 fails as stated: on a fresh writer of chunk size 4, `Close` and then
`Write("a")` both return nil and leave `"a"` buffered on the closed channel;
`Flush` in that state panics at its send, with the byte taken out of the
buffer and handed to nobody. -/
theorem flush_after_close_panics :
    runOps (NewChunkedWriter 4) [Op.close, Op.write [97]] =
        (⟨[97], 4, ⟨[], true⟩⟩, Res.ret [none, none]) ∧
      chunkedWriter.Flush ⟨[97], 4, ⟨[], true⟩⟩ =
        (⟨[], 4, ⟨[], true⟩⟩, Res.panic "send on closed channel") := by
  decide

/-! ## A closed channel -/

/-- On a closed channel the loop of `Write` leaves the channel as it is. -/
theorem writeLoop_closed (fuel : Nat) (w : chunkedWriter) (n : Nat)
    (hc : w.ch.closed = true) : (writeLoop fuel w n).1.ch = w.ch := by
  cases fuel with
  | zero => rfl
  | succ fuel =>
    simp only [writeLoop, Chan.send, hc, if_true]
    split
    · split <;> rfl
    · rfl

/-- On a closed channel the loop of `Flush` leaves the channel as it is. -/
theorem flushLoop_closed :
    ∀ (fuel : Nat) (w : chunkedWriter), w.ch.closed = true → (flushLoop fuel w).1.ch = w.ch := by
  intro fuel
  induction fuel with
  | zero => intro w _; rfl
  | succ fuel ih =>
    intro w hc
    simp only [flushLoop, Chan.send, hc, if_true]
    split
    · rfl
    · rename_i c h
      split at h
      · simp at h
      · simp only [Option.some.injEq] at h
        subst h
        split
        · rfl
        · rfl
        · exact ih _ hc

theorem Close_closed (w : chunkedWriter) (hc : w.ch.closed = true) :
    w.Close.1.ch = w.ch ∧ w.Close.2 ≠ Res.ret none := by
  have h : w.Flush.1.ch = w.ch := flushLoop_closed _ w hc
  unfold chunkedWriter.Close
  split
  · rename_i w1 heq
    rw [heq] at h
    simp only at h
    simp [Chan.close, h, hc]
  · rename_i w1 err heq; rw [heq] at h; exact ⟨h, by simp⟩
  · rename_i w1 msg heq; rw [heq] at h; exact ⟨h, by simp⟩
  · rename_i w1 heq; rw [heq] at h; exact ⟨h, by simp⟩

/-- No call on a writer whose channel is closed changes the channel: nothing
more is handed to the consumer. -/
theorem exec_closed (w : chunkedWriter) (op : Op) (hc : w.ch.closed = true) :
    (op.exec w).1.ch = w.ch := by
  cases op with
  | write p =>
    have h : (w.Write p).1.ch = w.ch := by
      unfold chunkedWriter.Write
      simp only [Buffer.Write]
      split
      · exact writeLoop_closed _ ⟨w.buf ++ p, w.sz, w.ch⟩ _ hc
      · rfl
    simp only [Op.exec]
    split
    · rename_i w1 n err heq; rw [heq] at h; exact h
    · rename_i w1 msg heq; rw [heq] at h; exact h
    · rename_i w1 heq; rw [heq] at h; exact h
  | flush => exact flushLoop_closed _ w hc
  | close => exact (Close_closed w hc).1

/-- No sequence of calls on a writer whose channel is closed changes the
channel. -/
theorem runOps_closed :
    ∀ (ops : List Op) (w : chunkedWriter), w.ch.closed = true → (runOps w ops).1.ch = w.ch := by
  intro ops
  induction ops with
  | nil => intro w _; rfl
  | cons op ops ih =>
    intro w hc
    have hex := exec_closed w op hc
    rcases runOps_cons_fst w op ops with h | h
    · rw [h, ih (op.exec w).1 (by rw [hex]; exact hc), hex]
    · rw [h, hex]

/-- A `Close` that returns nil leaves an empty buffer and a closed channel. -/
theorem Close_ret (w w1 : chunkedWriter) (hsz : 1 ≤ w.sz)
    (h : w.Close = (w1, Res.ret none)) :
    w1.buf = [] ∧ w1.sz = w.sz ∧ w1.ch.closed = true := by
  obtain ⟨buf, sz, ⟨sent, closed⟩⟩ := w
  simp only at hsz
  cases closed with
  | false =>
    rw [Close_spec sz hsz] at h
    simp only [Prod.mk.injEq, and_true] at h
    subst h
    exact ⟨rfl, rfl, rfl⟩
  | true =>
    have := (Close_closed ⟨buf, sz, ⟨sent, true⟩⟩ rfl).2
    rw [h] at this
    exact absurd rfl this

/-- C10, as the code has it: once `Close` has returned nil, no further sequence
of calls hands a block to the consumer, but the writer keeps no record of being
closed; a `Write` of fewer than `sz` bytes returns `(len(p), nil)` and buffers
`p`, and a `Flush` issued next returns nil. -/
theorem after_close (w w1 : chunkedWriter) (hsz : 1 ≤ w.sz)
    (hclose : w.Close = (w1, Res.ret none)) :
    (∀ p : List Byte, p.length < w1.sz →
        w1.Write p = (⟨p, w1.sz, w1.ch⟩, Res.ret (p.length, none))) ∧
      w1.Flush = (w1, Res.ret none) ∧
      (∀ ops : List Op, (runOps w1 ops).1.ch.sent = w1.ch.sent) := by
  obtain ⟨hbuf, hsz1, hc⟩ := Close_ret w w1 hsz hclose
  obtain ⟨buf1, sz1, ch1⟩ := w1
  simp only at hbuf hsz1 hc
  subst hbuf
  have hsz0 : sz1 ≠ 0 := by omega
  refine ⟨?_, ?_, ?_⟩
  · intro p hp
    have : ¬ sz1 ≤ p.length := by simp only at hp; omega
    simp [chunkedWriter.Write, Buffer.Write, this]
  · simp [chunkedWriter.Flush, flushLoop, Buffer.Read, hsz0]
  · intro ops
    rw [runOps_closed ops _ hc]

/-- C10 at `sz = 4`: the writer that closed with `"ab"` buffered. -/
theorem after_close_witness :
    chunkedWriter.Write ⟨[], 4, ⟨[[97, 98]], true⟩⟩ [99] =
        (⟨[99], 4, ⟨[[97, 98]], true⟩⟩, Res.ret (1, none)) ∧
      chunkedWriter.Flush ⟨[], 4, ⟨[[97, 98]], true⟩⟩ =
        (⟨[], 4, ⟨[[97, 98]], true⟩⟩, Res.ret none) ∧
      (runOps ⟨[], 4, ⟨[[97, 98]], true⟩⟩
        [Op.write [99, 100], Op.flush, Op.close]).1.ch.sent = [[97, 98]] :=
  ⟨(after_close ⟨[97, 98], 4, ⟨[], false⟩⟩ ⟨[], 4, ⟨[[97, 98]], true⟩⟩ (by decide)
      (by decide)).1 [99] (by decide),
   (after_close ⟨[97, 98], 4, ⟨[], false⟩⟩ ⟨[], 4, ⟨[[97, 98]], true⟩⟩ (by decide)
      (by decide)).2.1,
   (after_close ⟨[97, 98], 4, ⟨[], false⟩⟩ ⟨[], 4, ⟨[[97, 98]], true⟩⟩ (by decide)
      (by decide)).2.2 [Op.write [99, 100], Op.flush, Op.close]⟩

/-- C10 fails as stated: on a fresh writer of chunk size 4, `Close` returns nil,
and afterwards `Write("a")` returns `(1, nil)` and `Flush` returns nil. -/
theorem after_close_no_error :
    (NewChunkedWriter 4).Close = (⟨[], 4, ⟨[], true⟩⟩, Res.ret none) ∧
      chunkedWriter.Write ⟨[], 4, ⟨[], true⟩⟩ [97] =
        (⟨[97], 4, ⟨[], true⟩⟩, Res.ret (1, none)) ∧
      chunkedWriter.Flush ⟨[], 4, ⟨[], true⟩⟩ = (⟨[], 4, ⟨[], true⟩⟩, Res.ret none) := by
  decide

/-! ## Side-band packets -/

theorem hexDigit_spec (d : Nat) (h : d < 16) :
    hexDigitValue (hexDigit d) = d ∧ isLowerHexDigit (hexDigit d) = true := by
  have key : ∀ e : Fin 16,
      hexDigitValue (hexDigit e.val) = e.val ∧ isLowerHexDigit (hexDigit e.val) = true := by
    decide
  exact key ⟨d, h⟩

/-- The verb `%04x` prints a number below `0x10000` as exactly four digits. -/
theorem Sprintf04x_eq (n : Nat) (h : n < 65536) :
    Sprintf04x n =
      [hexDigit (n / 4096), hexDigit (n / 256 % 16), hexDigit (n / 16 % 16),
        hexDigit (n % 16)] := by
  have hz : hexDigit 0 = 48 := by decide
  by_cases h1 : n < 16
  · have e1 : n / 16 = 0 := by omega
    have e2 : n / 4096 = 0 := by omega
    have e3 : n / 256 % 16 = 0 := by omega
    have e4 : n / 16 % 16 = 0 := by omega
    simp [Sprintf04x, hexDigits, hexDigitsCore, e1, e2, e3, e4, hz, List.replicate]
  · obtain ⟨f, hf⟩ : ∃ f, n + 1 = f + 4 := ⟨n - 3, by omega⟩
    have e1 : ¬ n / 16 = 0 := by omega
    unfold Sprintf04x hexDigits
    rw [hf]
    clear hf
    by_cases h2 : n < 256
    · have e2 : n / 16 / 16 = 0 := by omega
      have e3 : n / 4096 = 0 := by omega
      have e4 : n / 256 % 16 = 0 := by omega
      simp only [hexDigitsCore, e1, e2, if_true, if_false]
      simp [e3, e4, hz, List.replicate]
    · have e2 : ¬ n / 16 / 16 = 0 := by omega
      by_cases h3 : n < 4096
      · have e3 : n / 16 / 16 / 16 = 0 := by omega
        have e4 : n / 4096 = 0 := by omega
        have e5 : n / 16 / 16 % 16 = n / 256 % 16 := by omega
        simp only [hexDigitsCore, e1, e2, e3, e5, if_true, if_false]
        simp [e4, hz, List.replicate]
      · have e3 : ¬ n / 16 / 16 / 16 = 0 := by omega
        have e4 : n / 16 / 16 / 16 / 16 = 0 := by omega
        have e5 : n / 16 / 16 % 16 = n / 256 % 16 := by omega
        have e6 : n / 16 / 16 / 16 % 16 = n / 4096 := by omega
        simp only [hexDigitsCore, e1, e2, e3, e4, e5, e6, if_true, if_false]
        simp [List.replicate]

/-- For a number below `0x10000`, `%04x` prints four lowercase hexadecimal
digits that denote the number. -/
theorem Sprintf04x_spec (n : Nat) (h : n < 65536) :
    (Sprintf04x n).length = 4 ∧ (∀ c ∈ Sprintf04x n, isLowerHexDigit c = true) ∧
      hexValue (Sprintf04x n) = n := by
  rw [Sprintf04x_eq n h]
  have h3 := hexDigit_spec (n / 4096) (by omega)
  have h2 := hexDigit_spec (n / 256 % 16) (by omega)
  have h1 := hexDigit_spec (n / 16 % 16) (by omega)
  have h0 := hexDigit_spec (n % 16) (by omega)
  refine ⟨rfl, ?_, ?_⟩
  · intro c hc
    simp only [List.mem_cons, List.mem_singleton, List.not_mem_nil, or_false] at hc
    rcases hc with rfl | rfl | rfl | rfl
    · exact h3.2
    · exact h2.2
    · exact h1.2
    · exact h0.2
  · simp only [hexValue, List.foldl_cons, List.foldl_nil, h3.1, h2.1, h1.1, h0.1]
    omega

theorem encode_main_of_le (p : List Byte) (h : p.length ≤ 65530) :
    SideBandMainPacket.EncodeToPktLine p =
      Res.ret (Sprintf04x (p.length + 5) ++ 1 :: p) := by
  have : ¬ p.length > 0xFFFF - 5 := by omega
  simp [SideBandMainPacket.EncodeToPktLine, Sprintf04xc, this]

theorem encode_report_of_le (p : List Byte) (h : p.length ≤ 65530) :
    SideBandReportPacket.EncodeToPktLine p =
      Res.ret (Sprintf04x (p.length + 5) ++ 2 :: p) := by
  have : ¬ p.length > 0xFFFF - 5 := by omega
  simp [SideBandReportPacket.EncodeToPktLine, Sprintf04xc, this]

theorem encode_error_of_le (p : List Byte) (h : p.length ≤ 65530) :
    SideBandErrorPacket.EncodeToPktLine p =
      Res.ret (Sprintf04x (p.length + 5) ++ 3 :: p) := by
  have : ¬ p.length > 0xFFFF - 5 := by omega
  simp [SideBandErrorPacket.EncodeToPktLine, Sprintf04xc, this]

/-- C5: for every payload `p` of at most 65530 bytes, `EncodeToPktLine` of
`SideBandMainPacket(p)`, `SideBandReportPacket(p)` and `SideBandErrorPacket(p)`
returns four lowercase hexadecimal digits whose value is `len(p) + 5`, then the
tag byte 1, 2 or 3 respectively, then `p` unchanged; the output has `len(p) + 5`
bytes, at most 65535, and its length prefix denotes its own length. -/
theorem sideband_encode_format (p : List Byte) (h : p.length ≤ 65530) :
    SideBandMainPacket.EncodeToPktLine p =
        Res.ret (Sprintf04x (p.length + 5) ++ 1 :: p) ∧
      SideBandReportPacket.EncodeToPktLine p =
        Res.ret (Sprintf04x (p.length + 5) ++ 2 :: p) ∧
      SideBandErrorPacket.EncodeToPktLine p =
        Res.ret (Sprintf04x (p.length + 5) ++ 3 :: p) ∧
      (Sprintf04x (p.length + 5)).length = 4 ∧
      (∀ c ∈ Sprintf04x (p.length + 5), isLowerHexDigit c = true) ∧
      hexValue (Sprintf04x (p.length + 5)) = p.length + 5 ∧
      (∀ t : Byte, (Sprintf04x (p.length + 5) ++ t :: p).length = p.length + 5 ∧
        (Sprintf04x (p.length + 5) ++ t :: p).length ≤ 65535 ∧
        hexValue ((Sprintf04x (p.length + 5) ++ t :: p).take 4) =
          (Sprintf04x (p.length + 5) ++ t :: p).length) := by
  obtain ⟨hlen, hdig, hval⟩ := Sprintf04x_spec (p.length + 5) (by omega)
  refine ⟨encode_main_of_le p h, encode_report_of_le p h, encode_error_of_le p h, hlen, hdig,
    hval, ?_⟩
  intro t
  have hl : (Sprintf04x (p.length + 5) ++ t :: p).length = p.length + 5 := by
    rw [List.length_append, hlen, List.length_cons]; omega
  refine ⟨hl, by omega, ?_⟩
  rw [hl, List.take_append_of_le_length (by omega), ← hlen, List.take_length, hval]

/-- C5 at the payload `"hi"`: the frame is `0007`, the tag, `hi`. -/
theorem sideband_encode_format_witness :
    SideBandMainPacket.EncodeToPktLine [104, 105] = Res.ret [48, 48, 48, 55, 1, 104, 105] ∧
      SideBandReportPacket.EncodeToPktLine [104, 105] =
        Res.ret [48, 48, 48, 55, 2, 104, 105] ∧
      SideBandErrorPacket.EncodeToPktLine [104, 105] =
        Res.ret [48, 48, 48, 55, 3, 104, 105] ∧
      hexValue (Sprintf04x 7) = 7 :=
  ⟨(sideband_encode_format [104, 105] (by decide)).1.trans (by decide),
   (sideband_encode_format [104, 105] (by decide)).2.1.trans (by decide),
   (sideband_encode_format [104, 105] (by decide)).2.2.1.trans (by decide),
   (sideband_encode_format [104, 105] (by decide)).2.2.2.2.2.1⟩

/-- C6: for every non-empty `BytesPacket` `b`, `ParseSideBandPacket(b)` returns
`SideBandMainPacket(b[1:])` when `b[0] = 1`, `SideBandReportPacket(b[1:])` when
`b[0] = 2`, `SideBandErrorPacket(b[1:])` when `b[0] = 3`, and nil for every
other value of `b[0]`. -/
theorem parse_sideband_cases (b : List Byte) (hb : 0 < b.length) :
    (b[0] = 1 → ParseSideBandPacket b =
        Res.ret (some (BytePayloadPacket.SideBandMainPacket (b.drop 1)))) ∧
      (b[0] = 2 → ParseSideBandPacket b =
        Res.ret (some (BytePayloadPacket.SideBandReportPacket (b.drop 1)))) ∧
      (b[0] = 3 → ParseSideBandPacket b =
        Res.ret (some (BytePayloadPacket.SideBandErrorPacket (b.drop 1)))) ∧
      (b[0] ≠ 1 → b[0] ≠ 2 → b[0] ≠ 3 → ParseSideBandPacket b = Res.ret none) := by
  cases b with
  | nil => simp at hb
  | cons t rest =>
    simp only [List.getElem_cons_zero, ParseSideBandPacket, List.head?_cons, List.drop_succ_cons,
      List.drop_zero]
    refine ⟨?_, ?_, ?_, ?_⟩
    · intro h; subst h; rfl
    · intro h; subst h; rfl
    · intro h; subst h; rfl
    · intro h1 h2 h3; simp [h1, h2, h3]

/-- C6 at the packets `"\x02ab"` and `"ab"`. -/
theorem parse_sideband_cases_witness :
    ParseSideBandPacket [2, 97, 98] =
        Res.ret (some (BytePayloadPacket.SideBandReportPacket [97, 98])) ∧
      ParseSideBandPacket [97, 98] = Res.ret none :=
  ⟨(parse_sideband_cases [2, 97, 98] (by decide)).2.1 (by decide),
   (parse_sideband_cases [97, 98] (by decide)).2.2.2 (by decide) (by decide) (by decide)⟩

/-- C7: for every payload `x` of at most 65530 bytes and each of the three
channels, `EncodeToPktLine` of the side-band packet for `x` returns a frame
which, once its 4-byte length prefix is dropped, `ParseSideBandPacket` maps to
the same channel's packet with payload exactly `x`. -/
theorem sideband_identity (x : List Byte) (hx : x.length ≤ 65530) :
    (∃ out, SideBandMainPacket.EncodeToPktLine x = Res.ret out ∧
        ParseSideBandPacket (out.drop 4) =
          Res.ret (some (BytePayloadPacket.SideBandMainPacket x))) ∧
      (∃ out, SideBandReportPacket.EncodeToPktLine x = Res.ret out ∧
        ParseSideBandPacket (out.drop 4) =
          Res.ret (some (BytePayloadPacket.SideBandReportPacket x))) ∧
      (∃ out, SideBandErrorPacket.EncodeToPktLine x = Res.ret out ∧
        ParseSideBandPacket (out.drop 4) =
          Res.ret (some (BytePayloadPacket.SideBandErrorPacket x))) := by
  have hlen := (Sprintf04x_spec (x.length + 5) (by omega)).1
  have hdrop : ∀ t : Byte, (Sprintf04x (x.length + 5) ++ t :: x).drop 4 = t :: x := by
    intro t
    rw [← hlen, List.drop_left]
  refine ⟨⟨_, encode_main_of_le x hx, ?_⟩, ⟨_, encode_report_of_le x hx, ?_⟩,
    ⟨_, encode_error_of_le x hx, ?_⟩⟩
  · rw [hdrop]; rfl
  · rw [hdrop]; rfl
  · rw [hdrop]; rfl

/-- C7 at the payload `"hi"` on the main channel. -/
theorem sideband_identity_witness :
    ∃ out, SideBandMainPacket.EncodeToPktLine [104, 105] = Res.ret out ∧
      ParseSideBandPacket (out.drop 4) =
        Res.ret (some (BytePayloadPacket.SideBandMainPacket [104, 105])) :=
  (sideband_identity [104, 105] (by decide)).1

/-- C8: for every payload `p` and each of the three side-band packet types,
`EncodeToPktLine` panics with "content too large" if and only if
`len(p) + 5 > 0xFFFF`, and returns a frame for every shorter payload, the empty
one included. -/
theorem sideband_encode_fails_iff (p : List Byte) :
    (SideBandMainPacket.EncodeToPktLine p = Res.panic "content too large" ↔
        p.length + 5 > 0xFFFF) ∧
      (SideBandReportPacket.EncodeToPktLine p = Res.panic "content too large" ↔
        p.length + 5 > 0xFFFF) ∧
      (SideBandErrorPacket.EncodeToPktLine p = Res.panic "content too large" ↔
        p.length + 5 > 0xFFFF) ∧
      (p.length + 5 ≤ 0xFFFF →
        (∃ out, SideBandMainPacket.EncodeToPktLine p = Res.ret out) ∧
        (∃ out, SideBandReportPacket.EncodeToPktLine p = Res.ret out) ∧
        (∃ out, SideBandErrorPacket.EncodeToPktLine p = Res.ret out)) ∧
      SideBandMainPacket.EncodeToPktLine [] = Res.ret [48, 48, 48, 53, 1] ∧
      SideBandReportPacket.EncodeToPktLine [] = Res.ret [48, 48, 48, 53, 2] ∧
      SideBandErrorPacket.EncodeToPktLine [] = Res.ret [48, 48, 48, 53, 3] := by
  refine ⟨?_, ?_, ?_, ?_, by decide, by decide, by decide⟩
  · by_cases h : p.length > 0xFFFF - 5
    · simp only [SideBandMainPacket.EncodeToPktLine, h, if_true, true_iff]; omega
    · simp only [SideBandMainPacket.EncodeToPktLine, h, if_false]
      constructor
      · intro hh; cases hh
      · intro hh; omega
  · by_cases h : p.length > 0xFFFF - 5
    · simp only [SideBandReportPacket.EncodeToPktLine, h, if_true, true_iff]; omega
    · simp only [SideBandReportPacket.EncodeToPktLine, h, if_false]
      constructor
      · intro hh; cases hh
      · intro hh; omega
  · by_cases h : p.length > 0xFFFF - 5
    · simp only [SideBandErrorPacket.EncodeToPktLine, h, if_true, true_iff]; omega
    · simp only [SideBandErrorPacket.EncodeToPktLine, h, if_false]
      constructor
      · intro hh; cases hh
      · intro hh; omega
  · intro h
    exact ⟨⟨_, encode_main_of_le p (by omega)⟩, ⟨_, encode_report_of_le p (by omega)⟩,
      ⟨_, encode_error_of_le p (by omega)⟩⟩

/-- C9 fails on the code: on the empty `BytesPacket` (the data frame `0004`) the
index expression `bp[0]` of `ParseSideBandPacket` panics instead of the function
returning nil. -/
theorem parse_sideband_empty_panics :
    ParseSideBandPacket [] = Res.panic "index out of range [0] with length 0" := by
  decide

/-! ## The iteration budget -/

/-- With `sz ≥ 1` the budget that `Write` gives its loop is never used up,
whatever the state of the writer. -/
theorem Write_terminates (w : chunkedWriter) (p : List Byte) (hsz : 1 ≤ w.sz) :
    (w.Write p).2 ≠ Res.timeout := by
  obtain ⟨buf, sz, ⟨sent, closed⟩⟩ := w
  simp only at hsz
  cases closed with
  | false => rw [Write_spec sz hsz]; simp
  | true =>
    unfold chunkedWriter.Write
    simp only [Buffer.Write]
    split
    · rename_i hle
      have hle1 : sz ≤ (buf ++ p).length := hle
      have hne : (buf ++ p).length ≠ 0 := by omega
      simp only [writeLoop, hle1, if_true, Buffer.Read, hne, if_false, Chan.send]
      simp
    · simp

/-- With `sz ≥ 1` the budget that `Flush` gives its loop is never used up,
whatever the state of the writer. -/
theorem Flush_terminates (w : chunkedWriter) (hsz : 1 ≤ w.sz) :
    w.Flush.2 ≠ Res.timeout := by
  obtain ⟨buf, sz, ⟨sent, closed⟩⟩ := w
  simp only at hsz
  have hsz0 : sz ≠ 0 := by omega
  cases closed with
  | false => rw [Flush_spec sz hsz]; simp
  | true =>
    unfold chunkedWriter.Flush
    by_cases hne : buf.length = 0
    · simp [flushLoop, Buffer.Read, hne, hsz0]
    · have hrd : (buf.take sz).length ≠ 0 := by rw [List.length_take]; omega
      simp only [flushLoop, Buffer.Read, hne, if_false, hrd, ne_eq, not_false_eq_true,
        if_true, Chan.send]
      simp

/-! ## A second `Close` -/

/-- C11, as the code has it: `Close` is not idempotent.  A second `Close` issued
after a first one that returned nil hands no block to the consumer and leaves the
writer (buffer, chunk size, blocks sent, closed flag) as the first `Close` left
it, but it does not return: `close(w.ch)` runs again and panics. -/
theorem second_close (w w1 : chunkedWriter) (hsz : 1 ≤ w.sz)
    (hclose : w.Close = (w1, Res.ret none)) :
    w1.Close = (w1, Res.panic "close of closed channel") := by
  obtain ⟨hbuf, hsz1, hc⟩ := Close_ret w w1 hsz hclose
  obtain ⟨buf1, sz1, ⟨sent1, closed1⟩⟩ := w1
  simp only at hbuf hsz1 hc
  subst hbuf hc
  have hsz0 : sz1 ≠ 0 := by omega
  simp [chunkedWriter.Close, chunkedWriter.Flush, flushLoop, Buffer.Read, hsz0, Chan.close]

/-- C11 at `sz = 4`: the writer that closed with `"ab"` buffered. -/
theorem second_close_witness :
    chunkedWriter.Close ⟨[], 4, ⟨[[97, 98]], true⟩⟩ =
      (⟨[], 4, ⟨[[97, 98]], true⟩⟩, Res.panic "close of closed channel") :=
  second_close ⟨[97, 98], 4, ⟨[], false⟩⟩ ⟨[], 4, ⟨[[97, 98]], true⟩⟩ (by decide) (by decide)

/-- C11 fails as stated: on a fresh writer of chunk size 4 the first `Close`
returns nil and the second one panics. -/
theorem second_close_panics :
    (NewChunkedWriter 4).Close = (⟨[], 4, ⟨[], true⟩⟩, Res.ret none) ∧
      (chunkedWriter.Close ⟨[], 4, ⟨[], true⟩⟩).2 = Res.panic "close of closed channel" := by
  decide

/-! ## Side-band packets, continued -/

/-- C12: for every `BytesPacket` `b` with `1 ≤ len(b) ≤ 65531` and `b[0]` in
`{1, 2, 3}`, `ParseSideBandPacket(b)` is a side-band packet whose
`EncodeToPktLine` returns four lowercase hexadecimal digits of value
`len(b) + 4` followed by `b`. -/
theorem sideband_reencode (b : List Byte) (h1 : 1 ≤ b.length) (h2 : b.length ≤ 65531)
    (htag : b[0] = 1 ∨ b[0] = 2 ∨ b[0] = 3) :
    (∃ pkt, ParseSideBandPacket b = Res.ret (some pkt) ∧
        pkt.EncodeToPktLine = Res.ret (Sprintf04x (b.length + 4) ++ b)) ∧
      (Sprintf04x (b.length + 4)).length = 4 ∧
      (∀ c ∈ Sprintf04x (b.length + 4), isLowerHexDigit c = true) ∧
      hexValue (Sprintf04x (b.length + 4)) = b.length + 4 := by
  refine ⟨?_, Sprintf04x_spec (b.length + 4) (by omega)⟩
  cases b with
  | nil => simp at h1
  | cons t rest =>
    simp only [List.getElem_cons_zero] at htag
    simp only [List.length_cons] at h2 ⊢
    have hr : rest.length ≤ 65530 := by omega
    rcases htag with rfl | rfl | rfl
    · exact ⟨BytePayloadPacket.SideBandMainPacket rest, rfl, encode_main_of_le rest hr⟩
    · exact ⟨BytePayloadPacket.SideBandReportPacket rest, rfl, encode_report_of_le rest hr⟩
    · exact ⟨BytePayloadPacket.SideBandErrorPacket rest, rfl, encode_error_of_le rest hr⟩

/-- C12 at the packet `"\x02hi"`: it encodes back to `0007`, then the packet. -/
theorem sideband_reencode_witness :
    ∃ pkt, ParseSideBandPacket [2, 104, 105] = Res.ret (some pkt) ∧
      pkt.EncodeToPktLine = Res.ret (Sprintf04x (3 + 4) ++ [2, 104, 105]) :=
  (sideband_reencode [2, 104, 105] (by decide) (by decide) (Or.inr (Or.inl (by decide)))).1

/-- C13, as the code has it: `SideBandErrorPacket("something failed\n")` encodes
to `"0016\x03something failed\n"`, the length prefix being `0016` (4 + 1 + 17 =
22 bytes), and the payload of that frame parses to the error-channel packet with
the 17-byte message. -/
theorem e5_frame :
    SideBandErrorPacket.EncodeToPktLine [115, 111, 109, 101, 116, 104, 105, 110, 103, 32, 102, 97, 105, 108, 101, 100, 10] =
        Res.ret [48, 48, 49, 54, 3, 115, 111, 109, 101, 116, 104, 105, 110, 103, 32, 102, 97, 105, 108, 101, 100, 10] ∧
      ([115, 111, 109, 101, 116, 104, 105, 110, 103, 32, 102, 97, 105, 108, 101, 100, 10] : List Byte).length = 17 ∧
      ParseSideBandPacket (([48, 48, 49, 54, 3, 115, 111, 109, 101, 116, 104, 105, 110, 103, 32, 102, 97, 105, 108, 101, 100, 10] : List Byte).drop 4) =
        Res.ret (some (BytePayloadPacket.SideBandErrorPacket [115, 111, 109, 101, 116, 104, 105, 110, 103, 32, 102, 97, 105, 108, 101, 100, 10])) := by
  decide

/-- C13 fails as stated: the encoding of `SideBandErrorPacket("something
failed\n")` is not `"0017\x03something failed\n"`. -/
theorem e5_frame_not_0017 :
    SideBandErrorPacket.EncodeToPktLine [115, 111, 109, 101, 116, 104, 105, 110, 103, 32, 102, 97, 105, 108, 101, 100, 10] ≠
      Res.ret [48, 48, 49, 55, 3, 115, 111, 109, 101, 116, 104, 105, 110, 103, 32, 102, 97, 105, 108, 101, 100, 10] := by
  decide

/-- C16: for every chunk size `1 ≤ sz ≤ 65530`, in particular `0xFFFF - 5`, and
every sequence of `Write`, `Flush` and `Close` calls on `NewChunkedWriter(sz)`,
`SideBandMainPacket(block).EncodeToPktLine()` returns, for every emitted block,
a frame of `len(block) + 5`, at most 65535, bytes. -/
theorem blocks_fit_sideband (sz : Nat) (h1 : 1 ≤ sz) (h2 : sz ≤ 0xFFFF - 5) (ops : List Op)
    (b : List Byte) (hb : b ∈ emitted sz ops) :
    ∃ out, SideBandMainPacket.EncodeToPktLine b = Res.ret out ∧
      out.length = b.length + 5 ∧ out.length ≤ 65535 := by
  have hlen := (runOps_blocks ops (NewChunkedWriter sz) h1 (fun _ h => by cases h)).2 b hb
  have hle : b.length ≤ 65530 := by
    have := hlen.2
    simp only [NewChunkedWriter] at this
    omega
  have hpre := (Sprintf04x_spec (b.length + 5) (by omega)).1
  refine ⟨_, encode_main_of_le b hle, ?_, ?_⟩
  · rw [List.length_append, hpre, List.length_cons]; omega
  · rw [List.length_append, hpre, List.length_cons]; omega

/-- C16 at `sz = 0xFFFF - 5`: the block `"abc"` of `Write("abc")`, `Close`. -/
theorem blocks_fit_sideband_witness :
    [97, 98, 99] ∈ emitted (0xFFFF - 5) [Op.write [97, 98, 99], Op.close] ∧
      ∃ out, SideBandMainPacket.EncodeToPktLine [97, 98, 99] = Res.ret out ∧
        out.length = [(97 : Byte), 98, 99].length + 5 ∧ out.length ≤ 65535 :=
  ⟨by decide,
   blocks_fit_sideband (0xFFFF - 5) (by decide) (by decide) [Op.write [97, 98, 99], Op.close]
    [97, 98, 99] (by decide)⟩

/-! ## The synchronized writer -/

theorem closeWithError_closed (s : synchronizedWriter) (msg : List Byte) :
    (s.closeWithError msg).1.closed = true := by
  unfold synchronizedWriter.closeWithError
  cases hc : s.closed with
  | true => simp [hc]
  | false =>
    simp only [Bool.false_eq_true, if_false]
    cases SideBandErrorPacket.EncodeToPktLine msg <;> rfl

theorem writePacket_closed (s : synchronizedWriter) (p : Packet) (hc : s.closed = true) :
    s.writePacket p = (s, Res.ret (some (GoError.other "already closed"))) := by
  simp [synchronizedWriter.writePacket, hc]

theorem runSync_cons_ret (s s1 : synchronizedWriter) (op : SyncOp) (ops : List SyncOp)
    (h : op.exec s = (s1, Res.ret ())) : runSync s (op :: ops) = runSync s1 ops := by
  simp only [runSync, h]

/-- A closed synchronized writer stays as it is under every sequence of
calls, and none of them panics. -/
theorem runSync_closed :
    ∀ (ops : List SyncOp) (s : synchronizedWriter), s.closed = true →
      runSync s ops = (s, Res.ret ()) := by
  intro ops
  induction ops with
  | nil => intro s _; rfl
  | cons op ops ih =>
    intro s hc
    have hex : op.exec s = (s, Res.ret ()) := by
      cases op with
      | writePacket p => simp [SyncOp.exec, writePacket_closed s p hc]
      | closeWithError msg => simp [SyncOp.exec, synchronizedWriter.closeWithError, hc]
    rw [runSync_cons_ret _ _ _ _ hex]
    exact ih s hc

/-- C14: for every packet `p`, the nil packet included, once `closeWithError`
has been called, and whatever calls have followed it, `writePacket(p)` returns
the error "already closed", writes no byte to the sink and leaves the state of
the writer unchanged. -/
theorem write_after_close (s : synchronizedWriter) (msg : List Byte) (ops : List SyncOp)
    (p : Packet) :
    (s.closeWithError msg).1.closed = true ∧
      (runSync (s.closeWithError msg).1 ops).1 = (s.closeWithError msg).1 ∧
      (runSync (s.closeWithError msg).1 ops).1.writePacket p =
        ((s.closeWithError msg).1, Res.ret (some (GoError.other "already closed"))) := by
  have hc := closeWithError_closed s msg
  rw [runSync_closed ops _ hc]
  exact ⟨hc, rfl, writePacket_closed _ p hc⟩

/-- Writes of packets that encode, on an open synchronized writer, put the
encodings in the sink, one write each. -/
theorem runSync_writes :
    ∀ (pre : List Packet) (encs : List (List Byte)) (w0 : List (List Byte))
      (tail : List SyncOp), pre.map Packet.EncodeToPktLine = encs.map Res.ret →
      runSync ⟨w0, false⟩ (pre.map SyncOp.writePacket ++ tail) =
        runSync ⟨w0 ++ encs, false⟩ tail := by
  intro pre
  induction pre with
  | nil =>
    intro encs w0 tail h
    cases encs with
    | nil => simp
    | cons e es => simp at h
  | cons p pre ih =>
    intro encs w0 tail h
    cases encs with
    | nil => simp at h
    | cons e es =>
      simp only [List.map_cons, List.cons.injEq] at h
      have hex : (SyncOp.writePacket p).exec ⟨w0, false⟩ = (⟨w0 ++ [e], false⟩, Res.ret ()) := by
        simp [SyncOp.exec, synchronizedWriter.writePacket, h.1]
      rw [List.map_cons, List.cons_append, runSync_cons_ret _ _ _ _ hex,
        ih es (w0 ++ [e]) tail h.2]
      simp

/-- C15: for every sequence of `writePacket` and `closeWithError` calls on a
fresh synchronized writer that contains a `closeWithError`, the first one with a
message of at most 65530 bytes and after writes of packets that encode, no call
panics and the sink has received the encodings of the packets written before
the first `closeWithError`, then exactly one side-band channel-3 frame carrying
the message of that first `closeWithError`, and nothing after it; the writer is
closed at the end of every such sequence, so the flag never returns to false. -/
theorem close_with_error_sticky (pre : List Packet) (encs : List (List Byte))
    (msg : List Byte) (rest : List SyncOp)
    (hpre : pre.map Packet.EncodeToPktLine = encs.map Res.ret) (hmsg : msg.length ≤ 65530) :
    SideBandErrorPacket.EncodeToPktLine msg =
        Res.ret (Sprintf04x (msg.length + 5) ++ 3 :: msg) ∧
      runSync ⟨[], false⟩ (pre.map SyncOp.writePacket ++ SyncOp.closeWithError msg :: rest) =
        (⟨encs ++ [Sprintf04x (msg.length + 5) ++ 3 :: msg], true⟩, Res.ret ()) := by
  have henc := encode_error_of_le msg hmsg
  refine ⟨henc, ?_⟩
  rw [runSync_writes pre encs [] _ hpre]
  have hex : (SyncOp.closeWithError msg).exec ⟨[] ++ encs, false⟩ =
      (⟨encs ++ [Sprintf04x (msg.length + 5) ++ 3 :: msg], true⟩, Res.ret ()) := by
    simp [SyncOp.exec, synchronizedWriter.closeWithError, henc]
  rw [runSync_cons_ret _ _ _ _ hex]
  exact runSync_closed rest _ rfl

/-- C15 at: a flush packet, the main-channel packet `"a"`, `closeWithError("x")`,
a flush packet, `closeWithError("y")`. -/
theorem close_with_error_sticky_witness :
    runSync ⟨[], false⟩
        ([Packet.other (Res.ret [48, 48, 48, 48]),
            Packet.sideband (BytePayloadPacket.SideBandMainPacket [97])].map SyncOp.writePacket ++
          SyncOp.closeWithError [120] ::
            [SyncOp.writePacket (Packet.other (Res.ret [48, 48, 48, 48])),
              SyncOp.closeWithError [121]]) =
      (⟨[[48, 48, 48, 48], [48, 48, 48, 54, 1, 97]] ++ [Sprintf04x ([(120 : Byte)].length + 5) ++
          3 :: [120]], true⟩, Res.ret ()) :=
  (close_with_error_sticky
    [Packet.other (Res.ret [48, 48, 48, 48]),
      Packet.sideband (BytePayloadPacket.SideBandMainPacket [97])]
    [[48, 48, 48, 48], [48, 48, 48, 54, 1, 97]] [120]
    [SyncOp.writePacket (Packet.other (Res.ret [48, 48, 48, 48])), SyncOp.closeWithError [121]]
    (by decide) (by decide)).2

/-! ## The response loop of the receive-pack handler -/

/-- On an open pipe and an open writer, the loop body writes the payload of a
main-channel packet to the pipe and then hands the packet to `writePacket` as
well: there is no `continue` after the write to the pipe. -/
theorem demuxStep_main (x pipe : List Byte) (w : List (List Byte)) (hx : x.length ≤ 65530) :
    demuxStep ⟨⟨pipe, false⟩, ⟨w, false⟩⟩ (ScannedPacket.BytesPacket (1 :: x)) =
      (⟨⟨pipe ++ x, false⟩, ⟨w ++ [Sprintf04x (x.length + 5) ++ 1 :: x], false⟩⟩,
        Res.ret Ctl.next) := by
  have henc := encode_main_of_le x hx
  simp [demuxStep, ParseSideBandPacket, Pipe.Write, Packet.ofBytePayloadPacket,
    synchronizedWriter.writePacket, Packet.EncodeToPktLine, BytePayloadPacket.EncodeToPktLine,
    henc, Res.andThen]

/-- C17 fails on the code: for the response `"\x01unpack ok\n"`, flush, the loop
writes `"unpack ok\n"` to the inner pipe and also writes the channel-1 packet
itself, re-encoded as `"000f\x01unpack ok\n"`, to the output sink. -/
theorem demux_main_also_forwarded :
    demuxLoop demuxInit
        [ScannedPacket.BytesPacket [1, 117, 110, 112, 97, 99, 107, 32, 111, 107, 10],
          ScannedPacket.FlushPacket] none =
      (⟨⟨[117, 110, 112, 97, 99, 107, 32, 111, 107, 10], false⟩,
        ⟨[[48, 48, 48, 102, 1, 117, 110, 112, 97, 99, 107, 32, 111, 107, 10]], false⟩⟩,
       Res.ret ()) := by
  decide

/-- C20 fails on the code: the loop body panics on the empty `BytesPacket`, at
`bp[0]` in `ParseSideBandPacket`, and on the packet `"unpack ok\n"`, which is
no side-band packet, at `p.EncodeToPktLine()` in `writePacket`, called on the
nil packet that `ParseSideBandPacket` returned. -/
theorem demux_step_panics :
    demuxStep demuxInit (ScannedPacket.BytesPacket []) =
        (demuxInit, Res.panic "index out of range [0] with length 0") ∧
      ParseSideBandPacket [117, 110, 112, 97, 99, 107, 32, 111, 107, 10] = Res.ret none ∧
      demuxStep demuxInit (ScannedPacket.BytesPacket [117, 110, 112, 97, 99, 107, 32, 111, 107, 10]) =
        (demuxInit, Res.panic "invalid memory address or nil pointer dereference") := by
  decide

/-! ## The buffer between calls -/

/-- `Flush` on a writer whose channel is closed: it returns nil on an empty
buffer and panics at the first send otherwise. -/
theorem Flush_closed_spec (sz : Nat) (hsz : 1 ≤ sz) (buf : List Byte)
    (sent : List (List Byte)) :
    chunkedWriter.Flush ⟨buf, sz, ⟨sent, true⟩⟩ =
      if buf.length = 0 then (⟨buf, sz, ⟨sent, true⟩⟩, Res.ret none)
      else (⟨buf.drop sz, sz, ⟨sent, true⟩⟩, Res.panic "send on closed channel") := by
  have hsz0 : sz ≠ 0 := by omega
  unfold chunkedWriter.Flush
  by_cases hne : buf.length = 0
  · simp [flushLoop, Buffer.Read, hne, hsz0]
  · have hrd : (buf.take sz).length ≠ 0 := by rw [List.length_take]; omega
    simp only [flushLoop, Buffer.Read, hne, if_false, hrd, ne_eq, not_false_eq_true,
      if_true, Chan.send]

/-- A call that returns, whatever error it returns, leaves fewer than `sz`
bytes in the buffer and keeps the chunk size. -/
theorem exec_ret_buf (w : chunkedWriter) (op : Op) (e : Option GoError) (hsz : 1 ≤ w.sz)
    (h : (op.exec w).2 = Res.ret e) :
    (op.exec w).1.buf.length < w.sz ∧ (op.exec w).1.sz = w.sz := by
  obtain ⟨buf, sz, ⟨sent, closed⟩⟩ := w
  simp only at hsz
  have hsz0 : sz ≠ 0 := by omega
  cases closed with
  | false =>
    cases op with
    | write p =>
      rw [exec_write_spec sz hsz]
      refine ⟨?_, rfl⟩
      show ((buf ++ p).drop ((buf ++ p).length / sz * sz)).length < sz
      rw [List.length_drop]
      have h1 := Nat.div_add_mod (buf ++ p).length sz
      have h2 := Nat.mod_lt (buf ++ p).length (show sz > 0 by omega)
      rw [Nat.mul_comm] at h1
      omega
    | flush =>
      have hx : Op.exec ⟨buf, sz, ⟨sent, false⟩⟩ Op.flush =
          (⟨[], sz, ⟨sent ++ specBlocks sz buf, false⟩⟩, Res.ret none) :=
        Flush_spec sz hsz buf sent
      rw [hx]
      exact ⟨by simpa using hsz, rfl⟩
    | close =>
      have hx : Op.exec ⟨buf, sz, ⟨sent, false⟩⟩ Op.close =
          (⟨[], sz, ⟨sent ++ specBlocks sz buf, true⟩⟩, Res.ret none) :=
        Close_spec sz hsz buf sent
      rw [hx]
      exact ⟨by simpa using hsz, rfl⟩
  | true =>
    cases op with
    | write p =>
      by_cases hle : sz ≤ (buf ++ p).length
      · have hne : (buf ++ p).length ≠ 0 := by omega
        exfalso
        simp only [Op.exec, chunkedWriter.Write, Buffer.Write, hle, if_true, writeLoop,
          Buffer.Read, hne, if_false, Chan.send] at h
        cases h
      · simp only [Op.exec, chunkedWriter.Write, Buffer.Write, hle, if_false]
        exact ⟨by omega, trivial⟩
    | flush =>
      have hf := Flush_closed_spec sz hsz buf sent
      by_cases hne : buf.length = 0
      · simp only [hne, if_true] at hf
        have hx : Op.exec ⟨buf, sz, ⟨sent, true⟩⟩ Op.flush =
            (⟨buf, sz, ⟨sent, true⟩⟩, Res.ret none) := hf
        rw [hx]
        exact ⟨by simp only [hne]; omega, rfl⟩
      · simp only [hne, if_false] at hf
        exfalso
        have h' : (chunkedWriter.Flush ⟨buf, sz, ⟨sent, true⟩⟩).2 = Res.ret e := h
        rw [hf] at h'
        cases h'
    | close =>
      have hf := Flush_closed_spec sz hsz buf sent
      exfalso
      have h' : (chunkedWriter.Close ⟨buf, sz, ⟨sent, true⟩⟩).2 = Res.ret e := h
      unfold chunkedWriter.Close at h'
      by_cases hne : buf.length = 0
      · simp only [hne, if_true] at hf
        rw [hf] at h'
        simp [Chan.close] at h'
      · simp only [hne, if_false] at hf
        rw [hf] at h'
        cases h'

/-- A run in which every call returns leaves fewer than `sz` bytes in the
buffer. -/
theorem runOps_ret_buf :
    ∀ (ops : List Op) (w : chunkedWriter) (errs : List (Option GoError)), 1 ≤ w.sz →
      w.buf.length < w.sz → (runOps w ops).2 = Res.ret errs →
      (runOps w ops).1.buf.length < w.sz := by
  intro ops
  induction ops with
  | nil => intro w errs _ hb _; exact hb
  | cons op ops ih =>
    intro w errs hsz hb h
    cases hex : op.exec w with
    | mk w1 r =>
      cases r with
      | ret e =>
        have hstep := exec_ret_buf w op e hsz (by rw [hex])
        rw [hex] at hstep
        simp only at hstep
        rw [runOps_cons_ret w w1 op ops e hex] at h ⊢
        cases hrun : runOps w1 ops with
        | mk w2 r2 =>
          cases r2 with
          | ret es =>
            have := ih w1 es (by omega) (by omega) (by rw [hrun])
            rw [hrun] at this
            simp only at this ⊢
            omega
          | panic msg => rw [hrun] at h; cases h
          | timeout => rw [hrun] at h; cases h
      | panic msg => simp only [runOps, hex] at h; cases h
      | timeout => simp only [runOps, hex] at h; cases h

/-- C18, as the code has it: for every `sz ≥ 1`, after every call of a sequence
of calls on a fresh writer that have all returned, the internal buffer holds
strictly fewer than `sz` bytes; and a `Write` that finds `r` bytes buffered and
receives `p`, on a channel that has not been closed or with `r + len(p) < sz`,
emits exactly `⌊(r + len(p)) / sz⌋` blocks, each of exactly `sz` bytes, returns
`(len(p), nil)`, and leaves `(r + len(p)) mod sz` bytes buffered. -/
theorem buffer_invariant (sz : Nat) (hsz : 1 ≤ sz) :
    (∀ (ops : List Op) (errs : List (Option GoError)),
        (runOps (NewChunkedWriter sz) ops).2 = Res.ret errs →
          (runOps (NewChunkedWriter sz) ops).1.buf.length < sz) ∧
      (∀ (buf p : List Byte) (sent : List (List Byte)) (closed : Bool),
        closed = false ∨ buf.length + p.length < sz →
        ∃ blocks rest, chunkedWriter.Write ⟨buf, sz, ⟨sent, closed⟩⟩ p =
            (⟨rest, sz, ⟨sent ++ blocks, closed⟩⟩, Res.ret (p.length, none)) ∧
          blocks.length = (buf.length + p.length) / sz ∧
          (∀ b ∈ blocks, b.length = sz) ∧
          rest.length = (buf.length + p.length) % sz) := by
  constructor
  · intro ops errs h
    exact runOps_ret_buf ops (NewChunkedWriter sz) errs hsz (by simpa [NewChunkedWriter] using hsz) h
  · intro buf p sent closed hc
    cases closed with
    | false =>
      refine ⟨_, _, Write_spec sz hsz buf p sent, ?_, ?_, ?_⟩
      · rw [slices_length, List.length_append]
      · exact slices_mem_length sz _ _ (div_mul_le_length sz _)
      · rw [List.length_drop, List.length_append]
        have h1 := Nat.div_add_mod (buf.length + p.length) sz
        rw [Nat.mul_comm] at h1
        omega
    | true =>
      have hlt : buf.length + p.length < sz := by
        rcases hc with h | h
        · cases h
        · exact h
      have hle : ¬ sz ≤ buf.length + p.length := by omega
      refine ⟨[], buf ++ p, ?_, ?_, ?_, ?_⟩
      · simp [chunkedWriter.Write, Buffer.Write, hle]
      · rw [Nat.div_eq_of_lt hlt]; rfl
      · intro b hb; cases hb
      · rw [Nat.mod_eq_of_lt hlt, List.length_append]

/-- C18 at `sz = 3`: `Write("abcd")`, `Flush`, `Write("e")` leaves one byte
buffered. -/
theorem buffer_invariant_witness :
    (runOps (NewChunkedWriter 3) [Op.write [97, 98, 99, 100], Op.flush, Op.write [101]]).2 =
        Res.ret [none, none, none] ∧
      (runOps (NewChunkedWriter 3)
        [Op.write [97, 98, 99, 100], Op.flush, Op.write [101]]).1.buf.length < 3 :=
  ⟨by decide,
   (buffer_invariant 3 (by decide)).1 [Op.write [97, 98, 99, 100], Op.flush, Op.write [101]]
    [none, none, none] (by decide)⟩

/-- C18 fails as stated: on a fresh writer of chunk size 4, `Close` and then
`Write("abc")` both return nil; the next `Write("d")` finds 3 bytes buffered and
panics at its send instead of returning `(1, nil)`, and no block is emitted.
And `Write("abcdefgh")` after `Close` panics with 4 bytes, not fewer, left in
the buffer. -/
theorem write_after_close_panics :
    runOps (NewChunkedWriter 4) [Op.close, Op.write [97, 98, 99]] =
        (⟨[97, 98, 99], 4, ⟨[], true⟩⟩, Res.ret [none, none]) ∧
      chunkedWriter.Write ⟨[97, 98, 99], 4, ⟨[], true⟩⟩ [100] =
        (⟨[], 4, ⟨[], true⟩⟩, Res.panic "send on closed channel") ∧
      runOps (NewChunkedWriter 4) [Op.close, Op.write [97, 98, 99, 100, 101, 102, 103, 104]] =
        (⟨[101, 102, 103, 104], 4, ⟨[], true⟩⟩, Res.panic "send on closed channel") := by
  decide

/-! ## Iterations of the two loops -/

theorem writeLoopI_fst :
    ∀ (fuel : Nat) (w : chunkedWriter) (n : Nat), (writeLoopI fuel w n).1 = writeLoop fuel w n := by
  intro fuel
  induction fuel with
  | zero => intro w n; rfl
  | succ fuel ih =>
    intro w n
    simp only [writeLoopI, writeLoop]
    split
    · split
      · rfl
      · split
        · rfl
        · exact ih _ n
    · rfl

theorem flushLoopI_fst :
    ∀ (fuel : Nat) (w : chunkedWriter), (flushLoopI fuel w).1 = flushLoop fuel w := by
  intro fuel
  induction fuel with
  | zero => intro w; rfl
  | succ fuel ih =>
    intro w
    simp only [flushLoopI, flushLoop]
    split
    · rfl
    · split
      · rfl
      · rfl
      · exact ih _

/-- A list `f 0, f 1, ..., f (n - 1)` whose entries go down is strictly
decreasing. -/
theorem pairwise_gt_map_range (f : Nat → Nat) (n : Nat)
    (h : ∀ i j, i < j → j < n → f j < f i) :
    List.Pairwise (fun a b => a > b) ((List.range n).map f) := by
  rw [List.pairwise_map]
  refine List.Pairwise.imp_of_mem ?_ (List.pairwise_lt_range n)
  intro a b _ hb hab
  exact h a b hab (List.mem_range.mp hb)

/-- The buffer lengths at the start of the iterations of the loop of `Write`:
`len`, `len - sz`, ..., one for each of the `⌊len / sz⌋` iterations. -/
theorem writeLoopI_trace (sz : Nat) (hsz : 1 ≤ sz) :
    ∀ (fuel : Nat) (buf : List Byte) (sent : List (List Byte)) (n : Nat),
      buf.length / sz < fuel →
      (writeLoopI fuel ⟨buf, sz, ⟨sent, false⟩⟩ n).2 =
        (List.range (buf.length / sz)).map (fun i => buf.length - i * sz) := by
  intro fuel
  induction fuel with
  | zero => intro buf sent n h; exact absurd h (Nat.not_lt_zero _)
  | succ fuel ih =>
    intro buf sent n h
    by_cases hle : sz ≤ buf.length
    · have hne : buf.length ≠ 0 := by omega
      obtain ⟨k, hk⟩ : ∃ k, buf.length / sz = k + 1 :=
        ⟨buf.length / sz - 1, by have := Nat.div_pos hle hsz; omega⟩
      have hk' : (buf.drop sz).length / sz = k := by
        rw [List.length_drop]
        have := Nat.sub_mul_div buf.length sz 1
        simp only [Nat.mul_one] at this
        omega
      have hrec := ih (buf.drop sz) (sent ++ [buf.take sz]) n (by omega)
      simp only [writeLoopI, hle, if_true, Buffer.Read, hne, if_false, Chan.send,
        Bool.false_eq_true]
      rw [hrec, hk', hk, List.range_succ_eq_map]
      simp only [List.map_cons, List.map_map, Nat.zero_mul, Nat.sub_zero, List.length_drop]
      congr 1
      apply List.map_congr_left
      intro i _
      simp only [Function.comp, Nat.succ_mul]
      omega
    · have h0 : buf.length / sz = 0 := Nat.div_eq_of_lt (by omega)
      simp [writeLoopI, hle, h0]

/-- The buffer lengths at the start of the iterations of the loop of `Flush`:
`len`, `len - sz`, ..., `0`, one for each of the `⌈len / sz⌉ + 1` iterations. -/
theorem flushLoopI_trace (sz : Nat) (hsz : 1 ≤ sz) :
    ∀ (fuel : Nat) (buf : List Byte) (sent : List (List Byte)),
      (buf.length + sz - 1) / sz < fuel →
      (flushLoopI fuel ⟨buf, sz, ⟨sent, false⟩⟩).2 =
        (List.range ((buf.length + sz - 1) / sz + 1)).map (fun i => buf.length - i * sz) := by
  intro fuel
  induction fuel with
  | zero => intro buf sent h; exact absurd h (Nat.not_lt_zero _)
  | succ fuel ih =>
    intro buf sent h
    have hsz0 : sz ≠ 0 := by omega
    by_cases hne : buf.length = 0
    · have hb : buf = [] := List.length_eq_zero.mp hne
      subst hb
      have h0 : (sz - 1) / sz = 0 := Nat.div_eq_of_lt (by omega)
      simp [flushLoopI, Buffer.Read, hsz0, h0]
    · obtain ⟨k, hk⟩ : ∃ k, (buf.length + sz - 1) / sz = k + 1 := by
        refine ⟨(buf.length + sz - 1) / sz - 1, ?_⟩
        have : 0 < (buf.length + sz - 1) / sz := Nat.div_pos (by omega) hsz
        omega
      have hk' : ((buf.drop sz).length + sz - 1) / sz = k := by
        rw [List.length_drop]
        by_cases hle : sz ≤ buf.length
        · have := Nat.sub_mul_div (buf.length + sz - 1) sz 1
          simp only [Nat.mul_one] at this
          have e : buf.length - sz + sz - 1 = buf.length + sz - 1 - sz := by omega
          rw [e]; omega
        · have e : buf.length - sz + sz - 1 = sz - 1 := by omega
          have h1 : (buf.length + sz - 1) / sz < 2 :=
            (Nat.div_lt_iff_lt_mul (by omega)).mpr (by omega)
          rw [e, Nat.div_eq_of_lt (by omega)]; omega
      have hrd : (buf.take sz).length ≠ 0 := by
        rw [List.length_take]; omega
      have hrec := ih (buf.drop sz) (sent ++ [buf.take sz]) (by omega)
      simp only [flushLoopI, Buffer.Read, hne, if_false, hrd, ne_eq, not_false_eq_true,
        if_true, Chan.send, Bool.false_eq_true]
      rw [hrec, hk', hk, List.range_succ_eq_map (k + 1)]
      simp only [List.map_cons, List.map_map, Nat.zero_mul, Nat.sub_zero, List.length_drop]
      congr 1
      apply List.map_congr_left
      intro i _
      simp only [Function.comp, Nat.succ_mul]
      omega

/-- C19: for every `sz ≥ 1`, every buffered content and every input slice `p`,
with a consumer that accepts every block, `Write(p)` and `Flush()` return.  The
loop of `Write` runs its body exactly `⌊len / sz⌋` times, `len` being the length
of the buffer once `p` is appended, and every iteration leaves the buffer
strictly shorter than it found it; the loop of `Flush` makes exactly
`⌈len / sz⌉ + 1` iterations, and the buffer is strictly shorter at the start of
each one than at the start of the one before.  The instrumented loops compute
what the loops compute. -/
theorem loops_terminate (sz : Nat) (hsz : 1 ≤ sz) (buf p : List Byte)
    (sent : List (List Byte)) :
    (∀ (fuel : Nat) (w : chunkedWriter) (n : Nat),
        (writeLoopI fuel w n).1 = writeLoop fuel w n) ∧
      (∀ (fuel : Nat) (w : chunkedWriter), (flushLoopI fuel w).1 = flushLoop fuel w) ∧
      (chunkedWriter.Write ⟨buf, sz, ⟨sent, false⟩⟩ p).2 = Res.ret (p.length, none) ∧
      (∀ fuel : Nat, (buf ++ p).length / sz < fuel →
        (writeLoopI fuel ⟨buf ++ p, sz, ⟨sent, false⟩⟩ p.length).1.2 =
            Res.ret (p.length, none) ∧
          (writeLoopI fuel ⟨buf ++ p, sz, ⟨sent, false⟩⟩ p.length).2.length =
            (buf ++ p).length / sz ∧
          List.Pairwise (fun a b => a > b)
            ((writeLoopI fuel ⟨buf ++ p, sz, ⟨sent, false⟩⟩ p.length).2 ++
              [(writeLoopI fuel ⟨buf ++ p, sz, ⟨sent, false⟩⟩ p.length).1.1.buf.length])) ∧
      (chunkedWriter.Flush ⟨buf, sz, ⟨sent, false⟩⟩).2 = Res.ret none ∧
      (∀ fuel : Nat, (buf.length + sz - 1) / sz < fuel →
        (flushLoopI fuel ⟨buf, sz, ⟨sent, false⟩⟩).1.2 = Res.ret none ∧
          (flushLoopI fuel ⟨buf, sz, ⟨sent, false⟩⟩).2.length =
            (buf.length + sz - 1) / sz + 1 ∧
          List.Pairwise (fun a b => a > b) (flushLoopI fuel ⟨buf, sz, ⟨sent, false⟩⟩).2) := by
  refine ⟨writeLoopI_fst, flushLoopI_fst, ?_, ?_, ?_, ?_⟩
  · rw [Write_spec sz hsz]
  · intro fuel hf
    rw [writeLoopI_fst, writeLoop_spec sz hsz fuel _ _ _ hf, writeLoopI_trace sz hsz fuel _ _ _ hf]
    refine ⟨rfl, by simp, ?_⟩
    have hfin : (List.range ((buf ++ p).length / sz)).map
          (fun i => (buf ++ p).length - i * sz) ++
          [(List.drop ((buf ++ p).length / sz * sz) (buf ++ p)).length] =
        (List.range ((buf ++ p).length / sz + 1)).map
          (fun i => (buf ++ p).length - i * sz) := by
      rw [List.range_succ, List.map_append, List.map_singleton, List.length_drop]
    show List.Pairwise (fun a b => a > b)
      ((List.range ((buf ++ p).length / sz)).map (fun i => (buf ++ p).length - i * sz) ++
        [(List.drop ((buf ++ p).length / sz * sz) (buf ++ p)).length])
    rw [hfin]
    apply pairwise_gt_map_range
    intro i j hij hj
    have h1 : j * sz ≤ (buf ++ p).length / sz * sz :=
      Nat.mul_le_mul_right sz (Nat.le_of_lt_succ hj)
    have h2 := div_mul_le_length sz (buf ++ p)
    have h3 : (i + 1) * sz ≤ j * sz := Nat.mul_le_mul_right sz hij
    rw [Nat.succ_mul] at h3
    show (buf ++ p).length - j * sz < (buf ++ p).length - i * sz
    omega
  · rw [Flush_spec sz hsz]
  · intro fuel hf
    rw [flushLoopI_fst, flushLoop_spec sz hsz fuel _ _ hf, flushLoopI_trace sz hsz fuel _ _ hf]
    refine ⟨rfl, by simp, ?_⟩
    apply pairwise_gt_map_range
    intro i j hij hj
    have hdm := Nat.div_add_mod (buf.length + sz - 1) sz
    have hmod := Nat.mod_lt (buf.length + sz - 1) (show sz > 0 by omega)
    rw [Nat.mul_comm] at hdm
    have h1 : (i + 1) * sz ≤ (buf.length + sz - 1) / sz * sz :=
      Nat.mul_le_mul_right sz (by omega)
    have h3 : (i + 1) * sz ≤ j * sz := Nat.mul_le_mul_right sz hij
    rw [Nat.succ_mul] at h1 h3
    show buf.length - j * sz < buf.length - i * sz
    omega

/-- C19 at `sz = 2` with `"a"` buffered and `p = "bcde"`: the loop of `Write`
runs twice, on 5 and on 3 bytes, and leaves 1; the loop of `Flush` on the three
bytes `"abc"` runs three times, on 3, 1 and 0 bytes. -/
theorem loops_terminate_witness :
    (writeLoopI 6 ⟨[97] ++ [98, 99, 100, 101], 2, ⟨[], false⟩⟩ 4).2 = [5, 3] ∧
      (writeLoopI 6 ⟨[97] ++ [98, 99, 100, 101], 2, ⟨[], false⟩⟩ 4).2.length =
        ([(97 : Byte)] ++ [98, 99, 100, 101]).length / 2 ∧
      (flushLoopI 4 ⟨[97, 98, 99], 2, ⟨[], false⟩⟩).2 = [3, 1, 0] ∧
      (chunkedWriter.Flush ⟨[97], 2, ⟨[], false⟩⟩).2 = Res.ret none :=
  ⟨by decide,
   ((loops_terminate 2 (by decide) [97] [98, 99, 100, 101] []).2.2.2.1 6 (by decide)).2.1,
   by decide,
   (loops_terminate 2 (by decide) [97] [98, 99, 100, 101] []).2.2.2.2.1⟩

/-! ## The scratch array -/

/-- `Buffer.ReadInto` and `Buffer.Read` agree: same rest of the buffer, same
error, and the bytes read are the slice `bs[:rdsz]` of the array. -/
theorem ReadInto_spec (b bs : List Byte) :
    (Buffer.ReadInto b bs).1 = (Buffer.Read b bs.length).1 ∧
      (Buffer.ReadInto b bs).2.1.take (Buffer.ReadInto b bs).2.2.1 =
        (Buffer.Read b bs.length).2.1 ∧
      (Buffer.ReadInto b bs).2.2.1 = (Buffer.Read b bs.length).2.1.length ∧
      (Buffer.ReadInto b bs).2.2.2 = (Buffer.Read b bs.length).2.2 ∧
      (Buffer.ReadInto b bs).2.1.length = bs.length := by
  unfold Buffer.ReadInto Buffer.Read copy
  by_cases hb : b.length = 0
  · by_cases hs : bs.length = 0 <;> simp [hb, hs]
  · simp only [hb, if_false]
    refine ⟨trivial, ?_, ?_, trivial, ?_⟩
    · rw [List.take_append_of_le_length (by rw [List.length_take])]
      rw [List.take_of_length_le (by rw [List.length_take])]
    · rw [List.length_take]
    · rw [List.length_append, List.length_take, List.length_drop]; omega

theorem writeLoopA_fst :
    ∀ (fuel : Nat) (w : chunkedWriter) (n : Nat) (bs : List Byte), bs.length = w.sz →
      (writeLoopA fuel w n bs).1 = writeLoop fuel w n := by
  intro fuel
  induction fuel with
  | zero => intro w n bs _; rfl
  | succ fuel ih =>
    intro w n bs hbs
    obtain ⟨h1, h2, _, h4, h5⟩ := ReadInto_spec w.buf bs
    rw [hbs] at h1 h2 h4
    rcases hA : Buffer.ReadInto w.buf bs with ⟨b1, bs1, rdsz, err1⟩
    rcases hR : Buffer.Read w.buf w.sz with ⟨b2, rd, err2⟩
    rw [hA, hR] at h1 h2 h4
    rw [hA] at h5
    simp only at h1 h2 h4 h5
    subst h1 h2 h4
    simp only [writeLoopA, writeLoop, hA, hR]
    split
    · cases err1 with
      | some e => rfl
      | none =>
        simp only
        cases hs : w.ch.send (List.take rdsz bs1) with
        | none => rfl
        | some c => exact ih _ n bs1 (by rw [h5, hbs])
    · rfl

theorem flushLoopA_fst :
    ∀ (fuel : Nat) (w : chunkedWriter) (bs : List Byte), bs.length = w.sz →
      (flushLoopA fuel w bs).1 = flushLoop fuel w := by
  intro fuel
  induction fuel with
  | zero => intro w bs _; rfl
  | succ fuel ih =>
    intro w bs hbs
    obtain ⟨h1, h2, h3, h4, h5⟩ := ReadInto_spec w.buf bs
    rw [hbs] at h1 h2 h3 h4
    rcases hA : Buffer.ReadInto w.buf bs with ⟨b1, bs1, rdsz, err1⟩
    rcases hR : Buffer.Read w.buf w.sz with ⟨b2, rd, err2⟩
    rw [hA, hR] at h1 h2 h3 h4
    rw [hA] at h5
    simp only at h1 h2 h3 h4 h5
    subst h1 h2 h4
    simp only [flushLoopA, flushLoop, hA, hR, ← h3]
    cases hs : (if rdsz ≠ 0 then w.ch.send (List.take rdsz bs1) else some w.ch) with
    | none => rfl
    | some c =>
      simp only
      cases err1 with
      | none => exact ih _ bs1 (by rw [h5, hbs])
      | some e => cases e <;> rfl

theorem WriteA_fst (w : chunkedWriter) (p : List Byte) : (w.WriteA p).1 = w.Write p := by
  unfold chunkedWriter.WriteA chunkedWriter.Write
  simp only
  split
  · exact writeLoopA_fst _ _ _ _ (List.length_replicate _ _)
  · rfl

theorem FlushA_fst (w : chunkedWriter) : w.FlushA.1 = w.Flush :=
  flushLoopA_fst _ w _ (List.length_replicate _ _)

theorem CloseA_fst (w : chunkedWriter) : w.CloseA.1 = w.Close := by
  unfold chunkedWriter.CloseA chunkedWriter.Close
  simp only [FlushA_fst]

theorem execA_fst (w : chunkedWriter) (op : Op) : (op.execA w).1 = op.exec w := by
  cases op with
  | write p => simp only [Op.execA, Op.exec, WriteA_fst]
  | flush => exact FlushA_fst w
  | close => exact CloseA_fst w

/-- The run with scratch arrays performs the same calls with the same results
as `runOps`. -/
theorem runOpsA_fst : ∀ (ops : List Op) (w : chunkedWriter), (runOpsA w ops).1 = runOps w ops := by
  intro ops
  induction ops with
  | nil => intro w; rfl
  | cons op ops ih =>
    intro w
    simp only [runOpsA, runOps, execA_fst]
    rcases hex : op.exec w with ⟨w1, r⟩
    cases r with
    | ret err => simp only [ih]
    | panic msg => rfl
    | timeout => rfl

/-- On an open channel the loop of `Write` hands over `⌊len / sz⌋` slices of
`sz` bytes each, and leaves in the scratch array the last block it read. -/
theorem writeLoopA_spec (sz : Nat) (hsz : 1 ≤ sz) :
    ∀ (fuel : Nat) (buf : List Byte) (sent : List (List Byte)) (n : Nat) (bs : List Byte),
      bs.length = sz → buf.length / sz < fuel →
      (writeLoopA fuel ⟨buf, sz, ⟨sent, false⟩⟩ n bs).2 =
        (if buf.length / sz = 0 then bs
          else (buf.drop ((buf.length / sz - 1) * sz)).take sz,
         List.replicate (buf.length / sz) sz) := by
  intro fuel
  induction fuel with
  | zero => intro buf sent n bs _ h; exact absurd h (Nat.not_lt_zero _)
  | succ fuel ih =>
    intro buf sent n bs hbs h
    by_cases hle : sz ≤ buf.length
    · have hne : buf.length ≠ 0 := by omega
      obtain ⟨k, hk⟩ : ∃ k, buf.length / sz = k + 1 :=
        ⟨buf.length / sz - 1, by have := Nat.div_pos hle hsz; omega⟩
      have hk' : (buf.drop sz).length / sz = k := by
        rw [List.length_drop]
        have := Nat.sub_mul_div buf.length sz 1
        simp only [Nat.mul_one] at this
        omega
      have hcopy : (copy bs buf).1 = buf.take sz := by
        unfold copy
        rw [hbs, List.drop_of_length_le (by omega), List.append_nil]
      have hcnt : (copy bs buf).2 = sz := by
        unfold copy
        rw [hbs]; exact Nat.min_eq_left hle
      have hrec := ih (buf.drop sz) (sent ++ [(buf.take sz).take sz]) n (buf.take sz)
        (by rw [List.length_take]; omega) (by omega)
      simp only [writeLoopA, hle, if_true, Buffer.ReadInto, hne, if_false, hbs, hcopy, hcnt,
        Chan.send, Bool.false_eq_true]
      rw [hrec, hk', hk]
      simp only [Nat.succ_ne_zero, if_false, Nat.add_sub_cancel, List.replicate_succ]
      congr 1
      by_cases hk0 : k = 0
      · subst hk0; simp
      · simp only [hk0, if_false, List.drop_drop]
        have e : sz + (k - 1) * sz = k * sz := by
          obtain ⟨j, rfl⟩ : ∃ j, k = j + 1 := ⟨k - 1, by omega⟩
          simp only [Nat.add_sub_cancel, Nat.succ_mul]; omega
        rw [e]
    · have h0 : buf.length / sz = 0 := Nat.div_eq_of_lt (by omega)
      simp [writeLoopA, hle, h0]

/-- What the consumer finds in the blocks of one `Write` once the call is over:
every one of the `k = ⌊len / sz⌋` blocks holds the bytes of the last one, the
`k`-th slice of the buffer, because all of them are slices of the one scratch
array. -/
theorem WriteA_held (sz : Nat) (hsz : 1 ≤ sz) (buf p : List Byte) (sent : List (List Byte)) :
    (chunkedWriter.WriteA ⟨buf, sz, ⟨sent, false⟩⟩ p).2 =
      List.replicate ((buf ++ p).length / sz)
        (((buf ++ p).drop (((buf ++ p).length / sz - 1) * sz)).take sz) := by
  unfold chunkedWriter.WriteA
  simp only [Buffer.Write]
  by_cases hle : sz ≤ (buf ++ p).length
  · have hk : (buf ++ p).length / sz ≠ 0 := by
      have := Nat.div_pos hle hsz; omega
    rw [if_pos hle, writeLoopA_spec sz hsz _ _ _ _ _ (List.length_replicate _ _)
      (Nat.lt_succ_of_le (Nat.div_le_self _ _))]
    simp only [hk, if_false, slicesOf, List.map_replicate]
    congr 1
    rw [List.take_take, Nat.min_self]
  · have h0 : (buf ++ p).length / sz = 0 := Nat.div_eq_of_lt (by omega)
    rw [if_neg hle, h0]
    rfl

theorem ReadInto_count (b bs : List Byte) :
    (Buffer.ReadInto b bs).2.2.1 ≤ bs.length ∧
      (Buffer.ReadInto b bs).2.1.length = bs.length := by
  refine ⟨?_, (ReadInto_spec b bs).2.2.2.2⟩
  unfold Buffer.ReadInto copy
  by_cases hb : b.length = 0
  · by_cases hs : bs.length = 0 <;> simp [hb, hs]
  · simp only [hb, if_false]
    exact Nat.min_le_left _ _

theorem send_sent (c c1 : Chan) (v : List Byte) (h : c.send v = some c1) :
    c1.sent = c.sent ++ [v] := by
  unfold Chan.send at h
  split at h
  · cases h
  · cases h; rfl

/-- The lengths that the loop of `Write` reports are those of the blocks it
sends, none longer than the scratch array, which keeps its length. -/
theorem writeLoopA_lengths :
    ∀ (fuel : Nat) (w : chunkedWriter) (n : Nat) (bs : List Byte), bs.length = w.sz →
      (writeLoopA fuel w n bs).2.1.length = w.sz ∧
        (∀ l ∈ (writeLoopA fuel w n bs).2.2, l ≤ w.sz) ∧
        (writeLoopA fuel w n bs).1.1.ch.sent.map List.length =
          w.ch.sent.map List.length ++ (writeLoopA fuel w n bs).2.2 := by
  intro fuel
  induction fuel with
  | zero =>
    intro w n bs hbs
    exact ⟨hbs, fun l h => absurd h (List.not_mem_nil l), (List.append_nil _).symm⟩
  | succ fuel ih =>
    intro w n bs hbs
    obtain ⟨hcnt, hlen⟩ := ReadInto_count w.buf bs
    rcases hA : Buffer.ReadInto w.buf bs with ⟨b1, bs1, rdsz, err1⟩
    rw [hA] at hcnt hlen
    simp only at hcnt hlen
    simp only [writeLoopA, hA]
    split
    · cases err1 with
      | some e =>
        dsimp only
        exact ⟨by rw [hlen, hbs], fun l h => absurd h (List.not_mem_nil l),
          (List.append_nil _).symm⟩
      | none =>
        dsimp only
        cases hs : w.ch.send (List.take rdsz bs1) with
        | none =>
          dsimp only
          exact ⟨by rw [hlen, hbs], fun l h => absurd h (List.not_mem_nil l),
            (List.append_nil _).symm⟩
        | some c =>
          dsimp only
          obtain ⟨i1, i2, i3⟩ := ih ⟨b1, w.sz, c⟩ n bs1 (by rw [hlen, hbs])
          refine ⟨i1, ?_, ?_⟩
          · intro l hl
            rcases List.mem_cons.mp hl with rfl | hl
            · omega
            · exact i2 l hl
          · simp only at i3 ⊢
            rw [i3, send_sent _ _ _ hs, List.map_append, List.map_singleton, List.length_take,
              Nat.min_eq_left (by omega)]
            simp
    · exact ⟨hbs, fun l h => absurd h (List.not_mem_nil l), (List.append_nil _).symm⟩

/-- The lengths that the loop of `Flush` reports are those of the blocks it
sends, none longer than the scratch array, which keeps its length. -/
theorem flushLoopA_lengths :
    ∀ (fuel : Nat) (w : chunkedWriter) (bs : List Byte), bs.length = w.sz →
      (flushLoopA fuel w bs).2.1.length = w.sz ∧
        (∀ l ∈ (flushLoopA fuel w bs).2.2, l ≤ w.sz) ∧
        (flushLoopA fuel w bs).1.1.ch.sent.map List.length =
          w.ch.sent.map List.length ++ (flushLoopA fuel w bs).2.2 := by
  intro fuel
  induction fuel with
  | zero =>
    intro w bs hbs
    exact ⟨hbs, fun l h => absurd h (List.not_mem_nil l), (List.append_nil _).symm⟩
  | succ fuel ih =>
    intro w bs hbs
    obtain ⟨hcnt, hlen⟩ := ReadInto_count w.buf bs
    rcases hA : Buffer.ReadInto w.buf bs with ⟨b1, bs1, rdsz, err1⟩
    rw [hA] at hcnt hlen
    simp only at hcnt hlen
    simp only [flushLoopA, hA]
    have hnew : ∀ c : Chan,
        (if rdsz ≠ 0 then w.ch.send (List.take rdsz bs1) else some w.ch) = some c →
        c.sent.map List.length =
          w.ch.sent.map List.length ++ (if rdsz ≠ 0 then [rdsz] else []) := by
      intro c hc
      by_cases h0 : rdsz ≠ 0
      · rw [if_pos h0] at hc ⊢
        rw [send_sent _ _ _ hc, List.map_append, List.map_singleton, List.length_take,
          Nat.min_eq_left (by omega)]
      · rw [if_neg h0] at hc ⊢
        cases hc
        simp
    have hle : ∀ l ∈ (if rdsz ≠ 0 then [rdsz] else []), l ≤ w.sz := by
      intro l hl
      by_cases h0 : rdsz ≠ 0
      · rw [if_pos h0] at hl
        rw [List.mem_singleton.mp hl]; omega
      · rw [if_neg h0] at hl; cases hl
    cases hs : (if rdsz ≠ 0 then w.ch.send (List.take rdsz bs1) else some w.ch) with
    | none =>
      dsimp only
      exact ⟨by rw [hlen, hbs], fun l h => absurd h (List.not_mem_nil l),
        (List.append_nil _).symm⟩
    | some c =>
      have hc := hnew c hs
      dsimp only
      cases err1 with
      | none =>
        dsimp only
        obtain ⟨i1, i2, i3⟩ := ih ⟨b1, w.sz, c⟩ bs1 (by rw [hlen, hbs])
        refine ⟨i1, ?_, ?_⟩
        · intro l hl
          rcases List.mem_append.mp hl with hl | hl
          · exact hle l hl
          · exact i2 l hl
        · simp only at i3 ⊢
          rw [i3, hc, List.append_assoc]
      | some e =>
        cases e with
        | EOF => dsimp only; exact ⟨by rw [hlen, hbs], hle, hc⟩
        | other msg => dsimp only; exact ⟨by rw [hlen, hbs], hle, hc⟩

theorem slicesOf_lengths (bs : List Byte) (lens : List Nat) (h : ∀ l ∈ lens, l ≤ bs.length) :
    (slicesOf bs lens).map List.length = lens := by
  unfold slicesOf
  rw [List.map_map]
  conv => rhs; rw [← List.map_id lens]
  apply List.map_congr_left
  intro l hl
  simp only [Function.comp, List.length_take, id]
  exact Nat.min_eq_left (h l hl)

/-- A call hands over blocks of the lengths that `Op.exec` records: the blocks
with the bytes they hold at the end and the blocks with the bytes they held at
hand-over are the same slices. -/
theorem execA_lengths (w : chunkedWriter) (op : Op) :
    (op.exec w).1.ch.sent.map List.length =
      w.ch.sent.map List.length ++ (op.execA w).2.map List.length := by
  have hW : ∀ p : List Byte, (w.Write p).1.ch.sent.map List.length =
      w.ch.sent.map List.length ++ (w.WriteA p).2.map List.length := by
    intro p
    rw [← WriteA_fst]
    unfold chunkedWriter.WriteA
    simp only
    split
    · obtain ⟨i1, i2, i3⟩ := writeLoopA_lengths ((Buffer.Write w.buf p).1.length + 1)
        ⟨(Buffer.Write w.buf p).1, w.sz, w.ch⟩ (Buffer.Write w.buf p).2
        (List.replicate w.sz 0) (List.length_replicate _ _)
      simp only at i1 i2 i3 ⊢
      rw [slicesOf_lengths _ _ (by rw [i1]; exact i2)]
      exact i3
    · simp
  have hF : w.Flush.1.ch.sent.map List.length =
      w.ch.sent.map List.length ++ w.FlushA.2.map List.length := by
    rw [← FlushA_fst]
    unfold chunkedWriter.FlushA
    obtain ⟨i1, i2, i3⟩ := flushLoopA_lengths (w.buf.length + 1) w
      (List.replicate w.sz 0) (List.length_replicate _ _)
    simp only
    rw [slicesOf_lengths _ _ (by rw [i1]; exact i2)]
    exact i3
  cases op with
  | write p =>
    have h := hW p
    simp only [Op.exec, Op.execA]
    rcases hw : w.Write p with ⟨w1, r⟩
    rw [hw] at h
    cases r with
    | ret a => exact h
    | panic msg => exact h
    | timeout => exact h
  | flush => exact hF
  | close =>
    show w.Close.1.ch.sent.map List.length = _ ++ w.CloseA.2.map List.length
    have h2 : w.CloseA.2 = w.FlushA.2 := rfl
    rw [h2, ← hF]
    unfold chunkedWriter.Close
    rcases hf : w.Flush with ⟨w1, r⟩
    cases r with
    | ret e =>
      cases e with
      | none =>
        simp only [Chan.close]
        by_cases hc : w1.ch.closed = true
        · simp [hc]
        · simp [hc]
      | some err => rfl
    | panic msg => rfl
    | timeout => rfl

/-- The blocks that a run leaves with the consumer are the blocks that it
handed over, one for one and with the same lengths: only their contents can
differ. -/
theorem runOpsA_lengths :
    ∀ (ops : List Op) (w : chunkedWriter),
      (runOps w ops).1.ch.sent.map List.length =
        w.ch.sent.map List.length ++ (runOpsA w ops).2.map List.length := by
  intro ops
  induction ops with
  | nil => intro w; simp [runOps, runOpsA]
  | cons op ops ih =>
    intro w
    have hex := execA_lengths w op
    have hfst := execA_fst w op
    simp only [runOps, runOpsA, hfst]
    rcases he : op.exec w with ⟨w1, r⟩
    rw [he] at hex
    simp only at hex
    cases r with
    | ret err =>
      have hrec := ih w1
      simp only
      rcases hr : runOps w1 ops with ⟨w2, r2⟩
      rw [hr] at hrec
      simp only at hrec
      cases r2 with
      | ret errs => simp only [List.map_append]; rw [hrec, hex, List.append_assoc]
      | panic msg => simp only [List.map_append]; rw [hrec, hex, List.append_assoc]
      | timeout => simp only [List.map_append]; rw [hrec, hex, List.append_assoc]
    | panic msg => exact hex
    | timeout => exact hex

/-- On a fresh writer, the blocks the consumer is left with have the lengths of
the blocks handed over. -/
theorem held_lengths (sz : Nat) (ops : List Op) :
    (held sz ops).map List.length = (emitted sz ops).map List.length := by
  have h := runOpsA_lengths ops (NewChunkedWriter sz)
  simpa [held, emitted, NewChunkedWriter] using h.symm

/-- C1 fails on the code: at `sz = 4`, `Write("abcdefghijkl")` and `Close` return
nil and hand over three blocks that hold `"abcd"`, `"efgh"` and `"ijkl"` when
they are handed over; all three are slices of the one scratch array of the
call, so once `Write` is over each of them holds `"ijkl"`, and their
concatenation is `"ijklijklijkl"`, not the bytes written. -/
theorem held_blocks_not_conserved :
    (runOps (NewChunkedWriter 4) [Op.write [97, 98, 99, 100, 101, 102, 103, 104, 105, 106, 107, 108], Op.close]).2 = Res.ret [none, none] ∧
      emitted 4 [Op.write [97, 98, 99, 100, 101, 102, 103, 104, 105, 106, 107, 108], Op.close] =
        [[97, 98, 99, 100], [101, 102, 103, 104], [105, 106, 107, 108]] ∧
      held 4 [Op.write [97, 98, 99, 100, 101, 102, 103, 104, 105, 106, 107, 108], Op.close] =
        [[105, 106, 107, 108], [105, 106, 107, 108], [105, 106, 107, 108]] ∧
      (held 4 [Op.write [97, 98, 99, 100, 101, 102, 103, 104, 105, 106, 107, 108], Op.close]).flatten ≠
        (writtenBy [Op.write [97, 98, 99, 100, 101, 102, 103, 104, 105, 106, 107, 108]]).flatten := by
  decide

/-- C2 fails on the code: at `sz = 4`, `Write("abcdefgh")` and `Close` hand over
two blocks of 4 bytes, `"abcd"` and then `"efgh"`, that are slices of one
array; once `Write` is over both hold `"efgh"`, so the consumer that keeps them
has `["efgh", "efgh"]`, not the slices `["abcd", "efgh"]` of the input.
`Write("abcdef")` and `Close` hand over one block in each call, and those stay
`["abcd", "ef"]`. -/
theorem held_blocks_e6 :
    held 4 [Op.write [97, 98, 99, 100, 101, 102, 103, 104], Op.close] = [[101, 102, 103, 104], [101, 102, 103, 104]] ∧
      specBlocks 4 [97, 98, 99, 100, 101, 102, 103, 104] = [[97, 98, 99, 100], [101, 102, 103, 104]] ∧
      held 4 [Op.write [97, 98, 99, 100, 101, 102, 103, 104], Op.close] ≠ specBlocks 4 [97, 98, 99, 100, 101, 102, 103, 104] ∧
      held 4 [Op.write [97, 98, 99, 100, 101, 102], Op.close] = [[97, 98, 99, 100], [101, 102]] := by
  decide

end gitprotocolio
